import Mathlib

/-!
Shallow embedding of the constraint/validation engine in
src/Sugary/shared/Constraint.py, together with proofs about the claims of
the specification.

Modelling conventions:
- Python runtime values and constraint descriptions live in one universe
  (PyObj), as in Python.  Type objects (int, str, ...) are ptype; instances
  of the Or, Countless and Multiple classes are orc, countless, multiple;
  plain one-argument functions (check constraints) are pfun, carrying an
  identity and an argument count, and their behaviour is given by an
  environment CheckEnv mapping the identity and the argument to the value
  the Python function would return.
- vfloat carries an opaque code naming a float object whose value is
  neither integral nor zero (the specification only ever uses 3.5), so a
  float never compares equal to an int or bool and is always truthy.
- Error objects (InvalidConstraintError, UnsatisfiedError) carry only
  human-readable text in the source, which no caller inspects, so the
  embedding keeps the error kind and drops the message.
- VResult.crash marks an uncaught Python exception: the source constructs
  InvalidConstraintError with a single argument in Or.validate and in
  Check.static_validate (a TypeError), and DictConstraint.static_validate
  calls Check.validate(fn, v) for a function-valued field, which reads
  fn.constraint on a plain function (an AttributeError).
-/

set_option maxHeartbeats 2000000

namespace Sugary

/-- The nominal Python type of a runtime object, as returned by type(x). -/
inductive PyType where
  | tInt | tStr | tBool | tFloat | tNone | tList | tTuple | tDict
  | tType | tOrCls | tCountless | tMultiple | tFunction
  deriving DecidableEq, Repr

/-- Python runtime objects, covering both candidate values and constraint
descriptions (in Python these are the same universe). -/
inductive PyObj where
  | vint (n : Int)
  | vstr (s : String)
  | vbool (b : Bool)
  | vfloat (code : Int)
  | vnone
  | vlist (xs : List PyObj)
  | vtuple (xs : List PyObj)
  | vdict (pairs : List (PyObj × PyObj))
  | ptype (t : PyType)
  | orc (options : List PyObj)
  | countless (inner : PyObj) (atLeast : Int)
  | multiple (inner : PyObj) (count : Int)
  | pfun (fid : Nat) (argc : Nat)
  deriving Repr

open PyObj

/-- type(x) on the embedded objects. -/
def typeOf : PyObj → PyType
  | vint _ => .tInt
  | vstr _ => .tStr
  | vbool _ => .tBool
  | vfloat _ => .tFloat
  | vnone => .tNone
  | vlist _ => .tList
  | vtuple _ => .tTuple
  | vdict _ => .tDict
  | ptype _ => .tType
  | orc _ => .tOrCls
  | countless _ _ => .tCountless
  | multiple _ _ => .tMultiple
  | pfun _ _ => .tFunction

mutual

/-- Python equality (the == operator).  Ints and bools compare numerically
(True == 1); floats are opaque non-integral codes; lists and tuples compare
elementwise and never to each other; dicts compare by length plus key-based
containment in both directions (order-insensitive, as in Python); objects of
the Or, Countless, Multiple and function classes have no custom equality in
the source, so Python compares them by identity, which the embedding renders
as structural equality of their descriptions. -/
def pyEq : PyObj → PyObj → Bool
  | vint a, vint b => a == b
  | vint a, vbool b => a == (if b then 1 else 0)
  | vbool a, vint b => (if a then (1 : Int) else 0) == b
  | vbool a, vbool b => a == b
  | vfloat a, vfloat b => a == b
  | vstr a, vstr b => a == b
  | vnone, vnone => true
  | vlist xs, vlist ys => pyEqL xs ys
  | vtuple xs, vtuple ys => pyEqL xs ys
  | vdict ps, vdict qs => (ps.length == qs.length) && dictLe ps qs && dictLe qs ps
  | ptype a, ptype b => a == b
  | orc xs, orc ys => pyEqL xs ys
  | countless c a, countless d b => pyEq c d && a == b
  | multiple c a, multiple d b => pyEq c d && a == b
  | pfun f a, pfun g b => f == g && a == b
  | _, _ => false
termination_by a b => sizeOf a + sizeOf b

/-- Elementwise Python equality of two sequences. -/
def pyEqL : List PyObj → List PyObj → Bool
  | [], [] => true
  | x :: xs, y :: ys => pyEq x y && pyEqL xs ys
  | _, _ => false
termination_by xs ys => sizeOf xs + sizeOf ys

/-- Look key k up in the pair list (first matching key) and compare the
stored value with v; false when the key is absent. -/
def dictFindEq : List (PyObj × PyObj) → PyObj → PyObj → Bool
  | [], _, _ => false
  | (k2, w) :: rest, k, v => if pyEq k2 k then pyEq v w else dictFindEq rest k v
termination_by qs k v => sizeOf qs + sizeOf k + sizeOf v

/-- Every pair of the first dict has a matching pair in the second. -/
def dictLe : List (PyObj × PyObj) → List (PyObj × PyObj) → Bool
  | [], _ => true
  | (k, v) :: rest, qs => dictFindEq qs k v && dictLe rest qs
termination_by ps qs => sizeOf ps + sizeOf qs

end

/-- Python truthiness of an object (vfloat codes denote nonzero floats). -/
def truthyObj : PyObj → Bool
  | vint n => n != 0
  | vstr s => s != ""
  | vbool b => b
  | vfloat _ => true
  | vnone => false
  | vlist xs => !xs.isEmpty
  | vtuple xs => !xs.isEmpty
  | vdict ps => !ps.isEmpty
  | _ => true

/-- The membership test key in keys (Python list membership via ==). -/
def pyMem : List PyObj → PyObj → Bool
  | [], _ => false
  | x :: rest, k => pyEq x k || pyMem rest k

/-- list.remove(k): drop the first element comparing equal to k. -/
def pyRemove : List PyObj → PyObj → List PyObj
  | [], _ => []
  | x :: rest, k => if pyEq x k then rest else x :: pyRemove rest k

/-- Dictionary lookup value[k]: the value of the first pair whose key
compares equal to k. -/
def pyLookup : List (PyObj × PyObj) → PyObj → Option PyObj
  | [], _ => none
  | (k2, w) :: rest, k => if pyEq k2 k then some w else pyLookup rest k

/-- The keys of a dictionary, in insertion order (list(value.keys())). -/
def pyKeys (ps : List (PyObj × PyObj)) : List PyObj := ps.map Prod.fst

/-- What a validate call returns: the Python booleans False (success for
most validators) and True (the list-like success value), a raw object
returned by a check function, the two error objects, or an uncaught
exception. -/
inductive VResult where
  | pybool (b : Bool)
  | obj (o : PyObj)
  | invalid
  | unsat
  | crash
  deriving Repr

/-- Python truthiness of a validation result: the callers test results with
if err: / if not err:, so only truthiness matters downstream. -/
def truthy : VResult → Bool
  | .pybool b => b
  | .obj o => truthyObj o
  | .invalid => true
  | .unsat => true
  | .crash => true

/-- Which class get_constraint_class resolves a constraint to. -/
inductive CKind where
  | ctype | cdict | clk | cor | cchk
  deriving DecidableEq, Repr

/-- TypeConstraint.is_valid_type_constraint: type(constraint) == type. -/
def isValidTypeC (c : PyObj) : Bool := typeOf c == PyType.tType

/-- Check.is_valid_check_constraint: a plain function of one argument. -/
def isValidCheckC : PyObj → Bool
  | pfun _ argc => argc == 1
  | _ => false

mutual

/-- DictConstraint.is_valid_dt_constraint: a dict, no key is a type, every
value resolves to a constraint class. -/
def isValidDictC : PyObj → Bool
  | vdict ps => validPairs ps
  | _ => false
termination_by c => (sizeOf c, 0)

/-- The per-pair condition of is_valid_dt_constraint. -/
def validPairs : List (PyObj × PyObj) → Bool
  | [] => true
  | (k, v) :: rest =>
    !(typeOf k == PyType.tType) && (getConstraintClass v).isSome && validPairs rest
termination_by ps => (sizeOf ps, 2)

/-- ListLikeConstraint.is_valid_lk_constraint: a list or tuple of elements
that resolve to a constraint class, or are Countless / Multiple instances
with a resolvable inner constraint. -/
def isValidLkC : PyObj → Bool
  | vlist xs => validElems xs
  | vtuple xs => validElems xs
  | _ => false
termination_by c => (sizeOf c, 0)

/-- The per-element condition of is_valid_lk_constraint. -/
def validElems : List PyObj → Bool
  | [] => true
  | c :: rest =>
    ((getConstraintClass c).isSome ||
      (match c with
        | countless inner _ => (getConstraintClass inner).isSome
        | multiple inner _ => (getConstraintClass inner).isSome
        | _ => false)) && validElems rest
termination_by xs => (sizeOf xs, 2)

/-- Or.is_valid_or_constraint: an Or instance whose stored options all
resolve to a constraint class (the stored options are always a tuple). -/
def isValidOrC : PyObj → Bool
  | orc opts => validOpts opts
  | _ => false
termination_by c => (sizeOf c, 0)

/-- The per-option condition of Or.is_constraint_valid. -/
def validOpts : List PyObj → Bool
  | [] => true
  | c :: rest => (getConstraintClass c).isSome && validOpts rest
termination_by xs => (sizeOf xs, 2)

/-- get_constraint_class: resolve a constraint to its handling class, in
the fixed priority order Type, Dict, ListLike, Or, Check. -/
def getConstraintClass (c : PyObj) : Option CKind :=
  if isValidTypeC c then some CKind.ctype
  else if isValidDictC c then some CKind.cdict
  else if isValidLkC c then some CKind.clk
  else if isValidOrC c then some CKind.cor
  else if isValidCheckC c then some CKind.cchk
  else none
termination_by (sizeOf c, 1)

end

/-- Whether an element is a Countless instance (type(c) == Countless). -/
def isCountlessE : PyObj → Bool
  | countless _ _ => true
  | _ => false

/-- Whether an element is a Multiple instance (type(c) == Multiple). -/
def isMultipleE : PyObj → Bool
  | multiple _ _ => true
  | _ => false

/-- expand_mt: replace every Multiple(inner, count) element by count
consecutive copies of inner (a negative count contributes nothing, like
range in Python). -/
def expandMt : List PyObj → List PyObj
  | [] => []
  | multiple inner count :: rest => List.replicate count.toNat inner ++ expandMt rest
  | c :: rest => c :: expandMt rest

/-- The backward scan of get_ct_group_info: called with the index of the
Countless seed, it walks indexes downward while elements compare equal to
the inner constraint, returning the group start and how many elements were
folded into at_least.  Walking off index 0 leaves the start at 0. -/
def leftScan (e : List PyObj) (inner : PyObj) : Nat → Nat × Int
  | 0 => (0, 0)
  | k + 1 =>
    if pyEq (e.getD k vnone) inner then
      let p := leftScan e inner k
      (p.1, p.2 + 1)
    else (k + 1, 0)

/-- The forward scan of get_ct_group_info: starting just after the seed it
absorbs adjacent Countless instances with an equal inner constraint
(summing their at_least and recording their indexes for removal) and plain
elements equal to the inner constraint, and stops at the first other
element, returning (group end, added at_least, removed indexes).  Reaching
the end of the list leaves the end at length - 1. -/
def rightScan (e : List PyObj) (inner : PyObj) (si : Nat) : Nat × Int × List Nat :=
  if si < e.length then
    match e.getD si vnone with
    | countless inner2 al2 =>
      if pyEq inner2 inner then
        let p := rightScan e inner (si + 1)
        (p.1, p.2.1 + al2, si :: p.2.2)
      else if pyEq (countless inner2 al2) inner then
        let p := rightScan e inner (si + 1)
        (p.1, p.2.1 + 1, p.2.2)
      else (si - 1, 0, [])
    | c =>
      if pyEq c inner then
        let p := rightScan e inner (si + 1)
        (p.1, p.2.1 + 1, p.2.2)
      else (si - 1, 0, [])
  else (e.length - 1, 0, [])
termination_by e.length - si

/-- The enumeration underlying ct_indexes: the positions, counted from i,
of the Countless elements of the remaining pattern. -/
def ctIdxFrom (i : Nat) : List PyObj → List Nat
  | [] => []
  | c :: rest =>
    if isCountlessE c then i :: ctIdxFrom (i + 1) rest else ctIdxFrom (i + 1) rest

/-- The indexes of the Countless elements of the expanded pattern
([i for i, c in enumerate(constraint) if type(c) == Countless]). -/
def ctIdx (e : List PyObj) : List Nat := ctIdxFrom 0 e

/-- The loop of get_ct_group_info over the Countless indexes: each pending
index seeds a group (start, end, inner, merged at_least); indexes absorbed
by the forward scan are removed from the pending list, exactly like the
list.remove calls on the iterated list in the source. -/
def groupLoop (e : List PyObj) : List Nat → List (Nat × Nat × PyObj × Int)
  | [] => []
  | ctI :: rest =>
    match e.getD ctI vnone with
    | countless inner al =>
      let ls := leftScan e inner ctI
      let rs := rightScan e inner (ctI + 1)
      (ls.1, rs.1, inner, al + ls.2 + rs.2.1) ::
        groupLoop e (rest.filter (fun j => !(rs.2.2.contains j)))
    | _ => groupLoop e rest
termination_by idxs => idxs.length
decreasing_by
  · exact Nat.lt_succ_of_le (List.length_filter_le _ _)
  · exact Nat.lt_succ_of_le (Nat.le_refl _)

/-- The reassembly loop of simplify_constraint: stitch the slices between
groups around the merged Countless elements, tracking last_end. -/
def rebuildLoop (e : List PyObj) : Nat → List (Nat × Nat × PyObj × Int) → List PyObj
  | lastEnd, [] => e.drop lastEnd
  | lastEnd, (s, en, inner, al) :: rest =>
    (e.drop lastEnd).take (s - lastEnd) ++ countless inner al :: rebuildLoop e (en + 1) rest

/-- simplify_constraint on the element list: expand Multiple, then merge
each Countless group. -/
def simplifyElems (xs : List PyObj) : List PyObj :=
  let expanded := expandMt xs
  rebuildLoop expanded 0 (groupLoop expanded (ctIdx expanded))

/-- ListLikeConstraint.simplify_constraint: None on an invalid constraint,
otherwise the simplified pattern in the original container kind. -/
def simplifyC : PyObj → Option PyObj
  | c =>
    if !(isValidLkC c) then none
    else
      match c with
      | vlist xs => some (vlist (simplifyElems xs))
      | vtuple xs => some (vtuple (simplifyElems xs))
      | _ => none

/-- The element list stored in a list or tuple object. -/
def lkElems : PyObj → List PyObj
  | vlist xs => xs
  | vtuple xs => xs
  | _ => []

mutual

/-- Structural size of a constraint, ignoring integer payloads, used as the
termination measure of the mutually recursive validators. -/
def psize : PyObj → Nat
  | vlist xs => 1 + psizeL xs
  | vtuple xs => 1 + psizeL xs
  | vdict ps => 1 + psizeP ps
  | orc xs => 1 + psizeL xs
  | countless c _ => 1 + psize c
  | multiple c _ => 1 + psize c
  | _ => 1

/-- Total psize of a list of objects. -/
def psizeL : List PyObj → Nat
  | [] => 0
  | x :: xs => psize x + psizeL xs

/-- Total psize of the values of a pair list (keys are never recursed into
by the validators). -/
def psizeP : List (PyObj × PyObj) → Nat
  | [] => 0
  | (k, v) :: ps => psize k + psize v + psizeP ps

end

/-- The largest psize among the elements of a list. -/
def pmaxE : List PyObj → Nat
  | [] => 0
  | c :: rest => max (psize c) (pmaxE rest)

/-- The largest psize among the values of a pair list. -/
def pmaxP : List (PyObj × PyObj) → Nat
  | [] => 0
  | (_, v) :: rest => max (psize v) (pmaxP rest)

theorem psize_pos (c : PyObj) : 1 ≤ psize c := by
  cases c <;> simp [psize]

theorem psize_le_psizeL {c : PyObj} {xs : List PyObj} (h : c ∈ xs) :
    psize c ≤ psizeL xs := by
  induction xs with
  | nil => cases h
  | cons x rest ih =>
    rcases List.mem_cons.mp h with h1 | h2
    · subst h1; simp [psizeL]
    · have := ih h2; simp [psizeL]; omega

theorem psize_le_psizeP {k v : PyObj} {ps : List (PyObj × PyObj)} (h : (k, v) ∈ ps) :
    psize v ≤ psizeP ps := by
  induction ps with
  | nil => cases h
  | cons p rest ih =>
    rcases p with ⟨k2, v2⟩
    rcases List.mem_cons.mp h with h1 | h2
    · simp only [Prod.mk.injEq] at h1
      rcases h1 with ⟨rfl, rfl⟩
      simp [psizeP]; omega
    · have := ih h2
      simp [psizeP]; omega

theorem psize_le_pmaxE {c : PyObj} {xs : List PyObj} (h : c ∈ xs) :
    psize c ≤ pmaxE xs := by
  induction xs with
  | nil => cases h
  | cons x rest ih =>
    rcases List.mem_cons.mp h with h1 | h2
    · subst h1; simp [pmaxE]
    · have := ih h2; simp [pmaxE]; omega

theorem psize_le_pmaxP {k v : PyObj} {ps : List (PyObj × PyObj)} (h : (k, v) ∈ ps) :
    psize v ≤ pmaxP ps := by
  induction ps with
  | nil => cases h
  | cons p rest ih =>
    rcases List.mem_cons.mp h with h1 | h2
    · rcases p with ⟨k2, v2⟩
      cases h1
      simp [pmaxP]
    · have := ih h2
      rcases p with ⟨k2, v2⟩
      simp [pmaxP]; omega

theorem pmaxE_le {xs : List PyObj} {m : Nat} (h : ∀ c ∈ xs, psize c ≤ m) :
    pmaxE xs ≤ m := by
  induction xs with
  | nil => simp [pmaxE]
  | cons x rest ih =>
    simp only [pmaxE, max_le_iff]
    exact ⟨h x (List.mem_cons_self x rest), ih fun c hc => h c (List.mem_cons_of_mem x hc)⟩

theorem pmaxP_le {ps : List (PyObj × PyObj)} {m : Nat}
    (h : ∀ k v, (k, v) ∈ ps → psize v ≤ m) : pmaxP ps ≤ m := by
  induction ps with
  | nil => simp [pmaxP]
  | cons p rest ih =>
    rcases p with ⟨k2, v2⟩
    simp only [pmaxP, max_le_iff]
    exact ⟨h k2 v2 (List.mem_cons_self _ rest),
      ih fun k v hkv => h k v (List.mem_cons_of_mem _ hkv)⟩

theorem expandMt_mem {c : PyObj} {xs : List PyObj} (h : c ∈ expandMt xs) :
    ∃ d ∈ xs, psize c ≤ psize d := by
  induction xs using expandMt.induct with
  | case1 => simp [expandMt] at h
  | case2 inner count rest ih =>
    rw [expandMt] at h
    rcases List.mem_append.mp h with h1 | h2
    · have hc : c = inner := List.eq_of_mem_replicate h1
      subst hc
      exact ⟨multiple c count, List.mem_cons_self _ _, by simp [psize]⟩
    · rcases ih h2 with ⟨d, hd, hle⟩
      exact ⟨d, List.mem_cons_of_mem _ hd, hle⟩
  | case3 x rest hx ih =>
    have hexp : expandMt (x :: rest) = x :: expandMt rest := by
      cases x <;> first | rfl | exact (hx _ _ rfl).elim
    rw [hexp] at h
    rcases List.mem_cons.mp h with h1 | h2
    · exact ⟨x, List.mem_cons_self _ _, h1 ▸ Nat.le_refl _⟩
    · rcases ih h2 with ⟨d, hd, hle⟩
      exact ⟨d, List.mem_cons_of_mem _ hd, hle⟩

theorem groupLoop_mem {e : List PyObj} {idxs : List Nat}
    {s en : Nat} {inner : PyObj} {al : Int}
    (h : (s, en, inner, al) ∈ groupLoop e idxs) :
    ∃ al0, countless inner al0 ∈ e := by
  induction idxs using groupLoop.induct e with
  | case1 => simp [groupLoop] at h
  | case2 ctI rest inner2 al2 heq rs ih =>
    rw [groupLoop, heq] at h
    rcases List.mem_cons.mp h with h1 | h2
    · simp only [Prod.mk.injEq] at h1
      rcases h1 with ⟨-, -, rfl, -⟩
      refine ⟨al2, ?_⟩
      have hlt : ctI < e.length := by
        by_contra hge
        rw [List.getD_eq_default _ _ (Nat.le_of_not_lt hge)] at heq
        exact PyObj.noConfusion heq
      rw [List.getD_eq_getElem e vnone hlt] at heq
      exact heq ▸ List.getElem_mem hlt
    · exact ih h2
  | case3 ctI rest hne ih =>
    rw [groupLoop] at h
    split at h
    · next inner2 al2 heq => exact (hne inner2 al2 heq).elim
    · exact ih h

theorem rebuildLoop_mem {c : PyObj} {e : List PyObj} {n : Nat}
    {gs : List (Nat × Nat × PyObj × Int)} (h : c ∈ rebuildLoop e n gs) :
    c ∈ e ∨ ∃ s en inner al, (s, en, inner, al) ∈ gs ∧ c = countless inner al := by
  induction gs generalizing n with
  | nil =>
    rw [rebuildLoop] at h
    exact Or.inl (List.drop_subset n e h)
  | cons g rest ih =>
    rcases g with ⟨s, en, inner, al⟩
    rw [rebuildLoop] at h
    rcases List.mem_append.mp h with h1 | h2
    · exact Or.inl (List.drop_subset _ e (List.take_subset _ _ h1))
    · rcases List.mem_cons.mp h2 with h3 | h4
      · exact Or.inr ⟨s, en, inner, al, List.mem_cons_self _ _, h3⟩
      · rcases ih h4 with h5 | ⟨s2, en2, inner2, al2, hg, hc⟩
        · exact Or.inl h5
        · exact Or.inr ⟨s2, en2, inner2, al2, List.mem_cons_of_mem _ hg, hc⟩

theorem simplifyElems_mem {c : PyObj} {xs : List PyObj} (h : c ∈ simplifyElems xs) :
    ∃ d ∈ xs, psize c ≤ psize d := by
  rw [simplifyElems] at h
  rcases rebuildLoop_mem h with h1 | ⟨s, en, inner, al, hg, hc⟩
  · exact expandMt_mem h1
  · rcases groupLoop_mem hg with ⟨al0, hmem⟩
    rcases expandMt_mem hmem with ⟨d, hd, hle⟩
    refine ⟨d, hd, ?_⟩
    subst hc
    simpa [psize] using hle

theorem simplifyElems_pmax {xs : List PyObj} : pmaxE (simplifyElems xs) ≤ psizeL xs := by
  apply pmaxE_le
  intro c hc
  rcases simplifyElems_mem hc with ⟨d, hd, hle⟩
  exact le_trans hle (psize_le_psizeL hd)

theorem simplifyC_pmax {c sc : PyObj} (h : simplifyC c = some sc) :
    pmaxE (lkElems sc) + 1 ≤ psize c := by
  cases c
  case vlist xs =>
    by_cases hv : isValidLkC (vlist xs)
    · simp only [simplifyC, hv, Bool.not_true, Bool.false_eq_true, if_false,
        Option.some.injEq] at h
      subst h
      have := @simplifyElems_pmax xs
      simp only [lkElems, psize]
      omega
    · simp [simplifyC, hv] at h
  case vtuple xs =>
    by_cases hv : isValidLkC (vtuple xs)
    · simp only [simplifyC, hv, Bool.not_true, Bool.false_eq_true, if_false,
        Option.some.injEq] at h
      subst h
      have := @simplifyElems_pmax xs
      simp only [lkElems, psize]
      omega
    · simp [simplifyC, hv] at h
  all_goals simp [simplifyC, isValidLkC] at h

theorem pmaxE_lt_orc {opts : List PyObj} : pmaxE opts + 1 ≤ psize (orc opts) := by
  have : pmaxE opts ≤ psizeL opts := pmaxE_le fun c hc => psize_le_psizeL hc
  simp only [psize]
  omega

theorem pmaxP_lt_vdict {ps : List (PyObj × PyObj)} : pmaxP ps + 1 ≤ psize (vdict ps) := by
  have : pmaxP ps ≤ psizeP ps := pmaxP_le fun k v hkv => by
    have := psize_le_psizeP hkv
    omega
  simp only [psize]
  omega

theorem lex3_lt {a1 b1 c1 a2 b2 c2 : Nat}
    (h : a1 < a2 ∨ (a1 = a2 ∧ (b1 < b2 ∨ (b1 = b2 ∧ c1 < c2)))) :
    Prod.Lex (· < ·) (Prod.Lex (· < ·) (· < ·)) (a1, b1, c1) (a2, b2, c2) := by
  rcases h with h | ⟨rfl, h | ⟨rfl, h⟩⟩
  · exact Prod.Lex.left _ _ h
  · exact Prod.Lex.right _ (Prod.Lex.left _ _ h)
  · exact Prod.Lex.right _ (Prod.Lex.right _ h)

/-- The behaviour of the user-supplied check functions: fid and the
argument determine what the Python function returns. -/
abbrev CheckEnv := Nat → PyObj → PyObj

/-- TypeConstraint.static_validate: InvalidConstraintError unless the
constraint is a type object, then False on an exact nominal type match and
UnsatisfiedError otherwise. -/
def tcValidate (c v : PyObj) : VResult :=
  if !(isValidTypeC c) then .invalid
  else
    match c with
    | ptype t => if typeOf v != t then .unsat else .pybool false
    | _ => .pybool false

/-- Check.static_validate: the source builds InvalidConstraintError with a
single argument for an invalid check constraint, raising TypeError, hence
crash; otherwise it calls the function and returns its result unchanged
when falsy, or UnsatisfiedError when truthy. -/
def chkValidate (env : CheckEnv) (c v : PyObj) : VResult :=
  if !(isValidCheckC c) then .crash
  else
    match c with
    | pfun fid _ =>
      let err := env fid v
      if truthyObj err then .unsat else .obj err
    | _ => .crash

/-- Python sequence indexing value[i]: negative indexes count from the end
(out-of-range access raises in Python and is unreachable here; the
embedding returns vnone there). -/
def pyIndex (l : List PyObj) (i : Int) : PyObj :=
  if 0 ≤ i then l.getD i.toNat vnone
  else l.getD (l.length - (-i).toNat) vnone

mutual

/-- DictConstraint.static_validate. -/
def dtValidate (env : CheckEnv) (c v : PyObj) (ae as : Bool) : VResult :=
  if !(isValidDictC c) then .invalid
  else if typeOf v != PyType.tDict then .unsat
  else
    match c, v with
    | vdict cps, vdict vps =>
      match dtLoop env vps as cps (pyKeys vps) with
      | .inl e => e
      | .inr leftovers =>
        if !leftovers.isEmpty && !ae then .unsat else .pybool false
    | _, _ => .crash
termination_by (psize c, 2, 0)
decreasing_by
  simp_wf
  apply lex3_lt
  have h := @pmaxP_lt_vdict cps
  omega

/-- The loop of DictConstraint.static_validate over the declared keys,
carrying the shrinking value_keys list; returns the short-circuited result
or the unconsumed keys. -/
def dtLoop (env : CheckEnv) (vps : List (PyObj × PyObj)) (as : Bool) :
    List (PyObj × PyObj) → List PyObj → Sum VResult (List PyObj)
  | [], vkeys => .inr vkeys
  | (k, fc) :: rest, vkeys =>
    if pyMem vkeys k then
      let vkeys2 := pyRemove vkeys k
      let fv := (pyLookup vps k).getD vnone
      if isValidTypeC fc then
        let err := tcValidate fc fv
        if truthy err then .inl err else dtLoop env vps as rest vkeys2
      else if isValidDictC fc then
        let err := dtValidate env fc fv true false
        if truthy err then .inl err else dtLoop env vps as rest vkeys2
      else if isValidLkC fc then
        let err := lkValidate env fc fv
        if truthy err then .inl err else dtLoop env vps as rest vkeys2
      else if isValidOrC fc then
        let err := orValidate env fc fv
        if truthy err then .inl err else dtLoop env vps as rest vkeys2
      else if isValidCheckC fc then
        .inl .crash
      else dtLoop env vps as rest vkeys2
    else
      if !as then .inl .unsat else dtLoop env vps as rest vkeys
termination_by cps _ => (pmaxP cps + 1, 1, cps.length)
decreasing_by
  all_goals
    simp_wf
    apply lex3_lt
    try simp only [pmaxP, List.length_cons]
    first
      | omega
      | (simp only [Nat.max_def]; split <;> first | omega | simp | (simp; omega))

/-- ListLikeConstraint.static_validate: simplify (InvalidConstraintError on
None), require a list or tuple value, run the matching loop, then apply the
final length check and return True. -/
def lkValidate (env : CheckEnv) (c v : PyObj) : VResult :=
  match hsc : simplifyC c with
  | none => .invalid
  | some sc =>
    if typeOf v != PyType.tList && typeOf v != PyType.tTuple then .unsat
    else
      let pat := lkElems sc
      let vs := lkElems v
      match lkLoopCore env vs pat 0 0 with
      | .inl e => e
      | .inr off =>
        if (pat.length : Int) + off < (vs.length : Int) then .unsat
        else .pybool true
termination_by (psize c, 2, 0)
decreasing_by
  simp_wf
  apply lex3_lt
  have h := simplifyC_pmax hsc
  omega

/-- The matching loop of ListLikeConstraint.static_validate over the
simplified pattern: i is the pattern index, offset the extra consumed
positions; inl is an early return, inr the final offset after all slots. -/
def lkLoopCore (env : CheckEnv) (value : List PyObj) :
    List PyObj → Nat → Int → Sum VResult Int
  | [], _, off => .inr off
  | c :: rest, i, off =>
    let vi : Int := (i : Int) + off
    if vi ≥ (value.length : Int) then .inl .unsat
    else
      let velem := pyIndex value vi
      if isValidTypeC c then
        let err := tcValidate c velem
        if truthy err then .inl err else lkLoopCore env value rest (i + 1) off
      else if isValidLkC c then
        let err := lkValidate env c velem
        if truthy err then .inl err else lkLoopCore env value rest (i + 1) off
      else if isValidDictC c then
        let err := dtValidate env c velem true false
        if truthy err then .inl err else lkLoopCore env value rest (i + 1) off
      else if isValidOrC c then
        let err := orValidate env c velem
        if truthy err then .inl err else lkLoopCore env value rest (i + 1) off
      else if isValidCheckC c then
        let err := chkValidate env c velem
        if truthy err then .inl err else lkLoopCore env value rest (i + 1) off
      else
        match c with
        | countless inner al =>
          match ctRun env inner (value.drop vi.toNat) with
          | .inl _ => .inl .crash
          | .inr run =>
            if (run : Int) < al then .inl .unsat
            else lkLoopCore env value rest (i + 1) (off + run - 1)
        | _ => lkLoopCore env value rest (i + 1) off
termination_by pat _ _ => (pmaxE pat + 1, 1, pat.length)
decreasing_by
  all_goals
    simp_wf
    apply lex3_lt
    try simp only [pmaxE, psize, List.length_cons]
    first
      | omega
      | (simp only [Nat.max_def]; split <;> first | omega | simp | (simp; omega))

/-- The greedy consumption of the while loop in the Countless branch: the
number of leading positions satisfying Countless.validate, stopping at the
first failing or out-of-range position; inl marks a propagating
exception. -/
def ctRun (env : CheckEnv) (inner : PyObj) : List PyObj → Sum Unit Nat
  | [] => .inr 0
  | v :: vs =>
    match countlessSat env inner v with
    | .inl _ => .inl ()
    | .inr true =>
      match ctRun env inner vs with
      | .inl _ => .inl ()
      | .inr n => .inr (n + 1)
    | .inr false => .inr 0
termination_by l => (psize inner + 1, 0, l.length)
decreasing_by
  all_goals
    simp_wf
    apply lex3_lt
    try simp only [List.length_cons]
    first | omega | simp | (simp; omega)

/-- Countless.validate: dispatch on the inner constraint kind and negate
the truthiness of the result; False when the inner constraint is of no
recognised kind; inl marks a propagating exception. -/
def countlessSat (env : CheckEnv) (inner v : PyObj) : Sum Unit Bool :=
  if isValidTypeC inner then .inr (!truthy (tcValidate inner v))
  else if isValidLkC inner then
    match lkValidate env inner v with
    | .crash => .inl ()
    | r => .inr (!truthy r)
  else if isValidDictC inner then
    match dtValidate env inner v true false with
    | .crash => .inl ()
    | r => .inr (!truthy r)
  else if isValidOrC inner then
    match orValidate env inner v with
    | .crash => .inl ()
    | r => .inr (!truthy r)
  else if isValidCheckC inner then .inr (!truthy (chkValidate env inner v))
  else .inr false
termination_by (psize inner, 3, 0)
decreasing_by
  all_goals
    simp_wf
    apply lex3_lt
    omega

/-- Or.validate: the source builds InvalidConstraintError with a single
argument when the option list is invalid, raising TypeError, hence crash
(likewise for a receiver that is not an Or instance); otherwise the options
are tried in declaration order. -/
def orValidate (env : CheckEnv) (c v : PyObj) : VResult :=
  match c with
  | orc opts =>
    if !(validOpts opts) then .crash
    else orLoop env v opts
  | _ => .crash
termination_by (psize c, 2, 0)
decreasing_by
  simp_wf
  apply lex3_lt
  have h := @pmaxE_lt_orc opts
  omega

/-- The loop of Or.validate: an option whose validator returns a falsy
result short-circuits with False; exhausting the options yields
UnsatisfiedError; exceptions propagate. -/
def orLoop (env : CheckEnv) (v : PyObj) : List PyObj → VResult
  | [] => .unsat
  | o :: rest =>
    if isValidTypeC o then
      if !truthy (tcValidate o v) then .pybool false else orLoop env v rest
    else if isValidLkC o then
      match lkValidate env o v with
      | .crash => .crash
      | r => if !truthy r then .pybool false else orLoop env v rest
    else if isValidDictC o then
      match dtValidate env o v true false with
      | .crash => .crash
      | r => if !truthy r then .pybool false else orLoop env v rest
    else if isValidOrC o then
      match orValidate env o v with
      | .crash => .crash
      | r => if !truthy r then .pybool false else orLoop env v rest
    else if isValidCheckC o then
      if !truthy (chkValidate env o v) then .pybool false else orLoop env v rest
    else orLoop env v rest
termination_by opts => (pmaxE opts + 1, 1, opts.length)
decreasing_by
  all_goals
    simp_wf
    apply lex3_lt
    try simp only [pmaxE, List.length_cons]
    first
      | omega
      | (simp only [Nat.max_def]; split <;> first | omega | simp | (simp; omega))

end

theorem lkValidate_none {env : CheckEnv} {c v : PyObj} (h : simplifyC c = none) :
    lkValidate env c v = .invalid := by
  rw [lkValidate.eq_def]
  split
  · rfl
  · next sc hsc => rw [h] at hsc; cases hsc

theorem lkValidate_some {env : CheckEnv} {c v sc : PyObj} (h : simplifyC c = some sc) :
    lkValidate env c v =
      (if typeOf v != PyType.tList && typeOf v != PyType.tTuple then .unsat
       else
         match lkLoopCore env (lkElems v) (lkElems sc) 0 0 with
         | .inl e => e
         | .inr off =>
           if ((lkElems sc).length : Int) + off < ((lkElems v).length : Int) then .unsat
           else .pybool true) := by
  rw [lkValidate.eq_def]
  split
  · next hsc => rw [h] at hsc; cases hsc
  · next sc2 hsc =>
    rw [h] at hsc
    injection hsc with e
    subst e
    rfl

-- Simp equations for evaluating the embedded engine on concrete inputs.
attribute [simp] typeOf pyEq pyEqL dictFindEq dictLe truthyObj pyMem pyRemove pyLookup pyKeys
  truthy isValidTypeC isValidCheckC isValidDictC validPairs isValidLkC validElems isValidOrC
  validOpts getConstraintClass isCountlessE isMultipleE expandMt leftScan rightScan ctIdxFrom
  ctIdx groupLoop rebuildLoop simplifyElems simplifyC lkElems tcValidate chkValidate pyIndex
  dtValidate dtLoop lkLoopCore ctRun countlessSat orValidate orLoop
  lkValidate_none lkValidate_some

/-- A check-function environment whose functions always return False
(every check passes); used to instantiate closed statements. -/
def envNil : CheckEnv := fun _ _ => PyObj.vbool false

attribute [simp] envNil

/-- Claim C7: for every type tag T and value v, validate(Type(T), v)
succeeds (returns the falsy False) exactly when the nominal type of v
equals T, with no coercion and no subtype acceptance (a boolean is never
accepted for the integer tag), it fails with Unsatisfied on any other type,
and it fails with InvalidConstraint whenever the constraint is not a type
tag. -/
theorem type_exact_match :
    (∀ (t : PyType) (v : PyObj),
      (tcValidate (ptype t) v = .pybool false ↔ typeOf v = t) ∧
      (typeOf v ≠ t → tcValidate (ptype t) v = .unsat)) ∧
    (∀ (c v : PyObj), isValidTypeC c = false → tcValidate c v = .invalid) ∧
    tcValidate (ptype .tInt) (vbool true) = .unsat ∧
    tcValidate (ptype .tInt) (vint 3) = .pybool false ∧
    tcValidate (ptype .tInt) (vstr "3") = .unsat := by
  have tcEval : ∀ (t : PyType) (v : PyObj),
      tcValidate (ptype t) v = if typeOf v != t then .unsat else .pybool false :=
    fun t v => rfl
  refine ⟨?_, ?_, by simp, by simp, by simp⟩
  · intro t v
    rw [tcEval]
    refine ⟨⟨?_, ?_⟩, ?_⟩
    · intro h
      by_cases hty : typeOf v = t
      · exact hty
      · rw [if_pos (by simp only [bne_iff_ne, ne_eq]; exact hty)] at h
        exact VResult.noConfusion h
    · intro hty
      rw [if_neg (by simp only [bne_iff_ne, ne_eq, not_not]; exact hty)]
    · intro hty
      rw [if_pos (by simp only [bne_iff_ne, ne_eq]; exact hty)]
  · intro c v h
    rw [tcValidate.eq_def, h]
    rfl

/-- Claim C7 witness. -/
theorem type_exact_match_witness :
    tcValidate (ptype .tStr) (vint 3) = .unsat ∧
    tcValidate (vint 0) vnone = .invalid :=
  ⟨(type_exact_match.1 .tStr (vint 3)).2 (by simp),
   type_exact_match.2.1 (vint 0) vnone (by simp)⟩

/-- Claim C8: malformed schemas take precedence: a record or sequence
constraint that fails the well-formedness check yields InvalidConstraint
for every candidate value, never Unsatisfied, because the check runs before
the value is inspected; in particular a record whose field value is the
unrecognised constraint 5 is rejected as InvalidConstraint for any value
and flag combination. -/
theorem invalid_constraint_precedence :
    (∀ (env : CheckEnv) (c v : PyObj) (ae as : Bool),
      isValidDictC c = false → dtValidate env c v ae as = .invalid) ∧
    (∀ (env : CheckEnv) (c v : PyObj),
      isValidLkC c = false → lkValidate env c v = .invalid) ∧
    (∀ (env : CheckEnv) (v : PyObj) (ae as : Bool),
      dtValidate env (vdict [(vstr "a", vint 5)]) v ae as = .invalid) := by
  have hdt : ∀ (env : CheckEnv) (c v : PyObj) (ae as : Bool),
      isValidDictC c = false → dtValidate env c v ae as = .invalid := by
    intro env c v ae as h
    rw [dtValidate.eq_def, h]
    rfl
  refine ⟨hdt, ?_, ?_⟩
  · intro env c v h
    have hsc : simplifyC c = none := by
      simp only [simplifyC.eq_def, h, Bool.not_false, if_true]
    exact lkValidate_none hsc
  · intro env v ae as
    apply hdt
    simp

/-- Claim C8 witness. -/
theorem invalid_constraint_precedence_witness :
    dtValidate envNil (vint 3) vnone true false = .invalid ∧
    lkValidate envNil (vint 3) vnone = .invalid :=
  ⟨invalid_constraint_precedence.1 envNil (vint 3) vnone true false (by simp),
   invalid_constraint_precedence.2.1 envNil (vint 3) vnone (by simp)⟩

/-- The result of dispatching one option inside the loop of Or.validate
(the same if/elif chain, returning the raw result the loop tests). -/
def orDispatch (env : CheckEnv) (o v : PyObj) : VResult :=
  if isValidTypeC o then tcValidate o v
  else if isValidLkC o then lkValidate env o v
  else if isValidDictC o then dtValidate env o v true false
  else if isValidOrC o then orValidate env o v
  else if isValidCheckC o then chkValidate env o v
  else .pybool false

theorem lkLoopCore_inl_truthy {env : CheckEnv} {value : List PyObj} :
    ∀ (pat : List PyObj) (i : Nat) (off : Int) (e : VResult),
      lkLoopCore env value pat i off = .inl e → truthy e = true := by
  intro pat
  induction pat with
  | nil =>
    intro i off e h
    rw [lkLoopCore.eq_def] at h
    exact Sum.noConfusion h
  | cons c rest ih =>
    intro i off e h
    rw [lkLoopCore.eq_def] at h
    dsimp only at h
    repeat' split at h
    all_goals
      first
      | exact Sum.noConfusion h
      | (injection h with h2; subst h2; first | rfl | assumption)
      | exact ih _ _ _ h

theorem tcValidate_ne_crash (c v : PyObj) : tcValidate c v ≠ .crash := by
  intro h
  rw [tcValidate.eq_def] at h
  split at h
  · exact VResult.noConfusion h
  · split at h
    · split at h <;> exact VResult.noConfusion h
    · exact VResult.noConfusion h

theorem vres_branch (r x y z : VResult) :
    r ≠ .crash →
    (match r with
     | .crash => x
     | r2 => if !truthy r2 then y else z) =
      if truthy r then z else y := by
  intro h
  cases r with
  | crash => exact absurd rfl h
  | pybool b => cases b <;> rfl
  | obj o =>
    dsimp only
    cases ht : truthy (VResult.obj o) <;> rfl
  | invalid => rfl
  | unsat => rfl

theorem orLoop_step (env : CheckEnv) (v o : PyObj) (rest : List PyObj)
    (hsome : (getConstraintClass o).isSome = true)
    (hcrash : orDispatch env o v ≠ .crash) :
    orLoop env v (o :: rest) =
      (if truthy (orDispatch env o v) then orLoop env v rest else .pybool false) := by
  rw [orLoop.eq_def]
  dsimp only
  by_cases h1 : isValidTypeC o = true
  · have hd : orDispatch env o v = tcValidate o v := by rw [orDispatch, if_pos h1]
    rw [hd, if_pos h1]
    cases htr : truthy (tcValidate o v) <;> rfl
  · by_cases h2 : isValidLkC o = true
    · have hd : orDispatch env o v = lkValidate env o v := by
        rw [orDispatch, if_neg h1, if_pos h2]
      rw [hd] at hcrash
      rw [hd, if_neg h1, if_pos h2]
      exact vres_branch _ _ _ _ hcrash
    · by_cases h3 : isValidDictC o = true
      · have hd : orDispatch env o v = dtValidate env o v true false := by
          rw [orDispatch, if_neg h1, if_neg h2, if_pos h3]
        rw [hd] at hcrash
        rw [hd, if_neg h1, if_neg h2, if_pos h3]
        exact vres_branch _ _ _ _ hcrash
      · by_cases h4 : isValidOrC o = true
        · have hd : orDispatch env o v = orValidate env o v := by
            rw [orDispatch, if_neg h1, if_neg h2, if_neg h3, if_pos h4]
          rw [hd] at hcrash
          rw [hd, if_neg h1, if_neg h2, if_neg h3, if_pos h4]
          exact vres_branch _ _ _ _ hcrash
        · by_cases h5 : isValidCheckC o = true
          · have hd : orDispatch env o v = chkValidate env o v := by
              rw [orDispatch, if_neg h1, if_neg h2, if_neg h3, if_neg h4, if_pos h5]
            rw [hd, if_neg h1, if_neg h2, if_neg h3, if_neg h4, if_pos h5]
            cases htr : truthy (chkValidate env o v) <;> rfl
          · exfalso
            rw [getConstraintClass] at hsome
            rw [if_neg h1, if_neg h3, if_neg h2, if_neg h4, if_neg h5] at hsome
            exact Bool.noConfusion hsome

theorem isValidLkC_not_type {o : PyObj} (h : isValidLkC o = true) :
    isValidTypeC o = false := by
  cases o <;> first | rfl | (rw [isValidLkC.eq_def] at h; exact Bool.noConfusion h)

/-- Claim C3 counterexample: the sequence option [Type(Integer)] accepts
the value [1] (ListLikeConstraint.static_validate returns its success
value True), yet Or.validate on an alternative whose only option is that
sequence fails with Unsatisfied, so the claim that validate returns
success at the first accepting option, and fails only when every option
rejects, is false as stated. -/
theorem or_claim_counterexample :
    lkValidate envNil (vlist [ptype .tInt]) (vlist [vint 1]) = .pybool true ∧
    orValidate envNil (orc [vlist [ptype .tInt]]) (vlist [vint 1]) = .unsat :=
  ⟨by simp, by simp⟩

/-- Claim C3 (amended): Or.validate first checks well-formedness, then
tries the options in declaration order; an option whose dispatched
validator returns a falsy result短 short-circuits to success (False)
without the remaining options being consulted, a truthy result moves on
to the next option, and exhausting the options yields Unsatisfied.  A
sequence option is dispatched to ListLikeConstraint.static_validate,
whose success value True is truthy, so a sequence option never produces
success.  The spec examples hold: Alternative([Integer, String]) accepts
"x" and rejects 3.5. -/
theorem or_first_falsy_option :
    (∀ (env : CheckEnv) (opts : List PyObj) (v : PyObj),
      orValidate env (orc opts) v =
        if !(validOpts opts) then .crash else orLoop env v opts) ∧
    (∀ (env : CheckEnv) (v : PyObj), orLoop env v [] = .unsat) ∧
    (∀ (env : CheckEnv) (v o : PyObj) (rest : List PyObj),
      (getConstraintClass o).isSome = true →
      orDispatch env o v ≠ .crash →
      orLoop env v (o :: rest) =
        (if truthy (orDispatch env o v) then orLoop env v rest else .pybool false)) ∧
    (∀ (env : CheckEnv) (o v : PyObj),
      isValidLkC o = true → orDispatch env o v = lkValidate env o v) ∧
    (∀ (env : CheckEnv) (o v : PyObj) (rest : List PyObj),
      isValidLkC o = true → lkValidate env o v = .pybool true →
      orLoop env v (o :: rest) = orLoop env v rest) ∧
    orValidate envNil (orc [ptype .tInt, ptype .tStr]) (vstr "x") = .pybool false ∧
    orValidate envNil (orc [ptype .tInt, ptype .tStr]) (vfloat 35) = .unsat := by
  have hdisp : ∀ (env : CheckEnv) (o v : PyObj),
      isValidLkC o = true → orDispatch env o v = lkValidate env o v := by
    intro env o v h
    rw [orDispatch, if_neg (by rw [isValidLkC_not_type h]; exact Bool.noConfusion),
      if_pos h]
  refine ⟨?_, ?_, ?_, hdisp, ?_, by simp, by simp⟩
  · intro env opts v
    rw [orValidate]
  · intro env v
    rw [orLoop]
  · intro env v o rest hsome hcrash
    exact orLoop_step env v o rest hsome hcrash
  · intro env o v rest hlk hsucc
    rw [orLoop.eq_def]
    dsimp only
    rw [if_neg (by rw [isValidLkC_not_type hlk]; exact Bool.noConfusion), if_pos hlk, hsucc]
    rfl

/-- Claim C3 witness. -/
theorem or_first_falsy_option_witness :
    orLoop envNil (vstr "x") [ptype PyType.tStr, ptype PyType.tInt] =
      (if truthy (orDispatch envNil (ptype PyType.tStr) (vstr "x"))
       then orLoop envNil (vstr "x") [ptype PyType.tInt] else .pybool false) ∧
    orDispatch envNil (vlist [ptype PyType.tInt]) (vint 7) =
      lkValidate envNil (vlist [ptype PyType.tInt]) (vint 7) :=
  ⟨or_first_falsy_option.2.2.1 envNil (vstr "x") (ptype PyType.tStr) [ptype PyType.tInt]
      (by simp) (by simp [orDispatch]),
   or_first_falsy_option.2.2.2.1 envNil (vlist [ptype PyType.tInt]) (vint 7) (by simp)⟩

/-- Claim C4: ListLikeConstraint.static_validate returns the truthy True
as its success value, and every result it can return is truthy, while the
type, record, alternative and predicate validators signal success with a
falsy value; consequently every caller that treats a truthy result as a
failure misclassifies a successful sequence validation: a record whose
sequence field matches reports the truthy True, the nested-sequence
dispatch of the sequence matcher returns True early (here accepting a
mismatched tail), Or.validate skips a sequence option that accepts, and
Countless.validate rejects values its sequence inner constraint
accepts. -/
theorem lk_truthy_success :
    (∀ (env : CheckEnv) (c v : PyObj), truthy (lkValidate env c v) = true) ∧
    truthy (tcValidate (ptype .tInt) (vint 1)) = false ∧
    truthy (dtValidate envNil (vdict [(vstr "a", ptype .tInt)])
      (vdict [(vstr "a", vint 1)]) true false) = false ∧
    truthy (orValidate envNil (orc [ptype .tInt]) (vint 1)) = false ∧
    truthy (chkValidate envNil (pfun 0 1) (vint 1)) = false ∧
    lkValidate envNil (vlist [ptype .tInt]) (vlist [vint 1]) = .pybool true ∧
    dtValidate envNil (vdict [(vstr "a", vlist [ptype .tInt])])
      (vdict [(vstr "a", vlist [vint 1])]) true false = .pybool true ∧
    lkValidate envNil (vlist [vlist [ptype .tInt], ptype .tInt])
      (vlist [vlist [vint 1], vstr "x"]) = .pybool true ∧
    orValidate envNil (orc [vlist [ptype .tInt], ptype .tStr])
      (vlist [vint 1]) = .unsat ∧
    lkValidate envNil (vlist [countless (vlist [ptype .tInt]) 1])
      (vlist [vlist [vint 1]]) = .unsat := by
  refine ⟨?_, by simp, by simp, by simp, by simp, by simp, by simp, by simp, by simp, by simp⟩
  intro env c v
  cases hsc : simplifyC c with
  | none => rw [lkValidate_none hsc]; rfl
  | some sc =>
    rw [lkValidate_some hsc]
    split
    · rfl
    · split
      · next e heq => exact lkLoopCore_inl_truthy _ _ _ _ heq
      · split <;> rfl

theorem isValidDictC_shape {c : PyObj} (h : isValidDictC c = true) :
    isValidTypeC c = false ∧ isValidLkC c = false := by
  cases c <;>
    first
    | (refine ⟨rfl, ?_⟩; rw [isValidLkC.eq_def]; try exact rfl
       done)
    | (rw [isValidDictC.eq_def] at h; exact Bool.noConfusion h)

/-- Claim C9: for a well-formed record constraint, a declared key missing
from the value fails with Unsatisfied when acceptScarcity is false; once
the loop over the declared keys completes, the leftover unconsumed value
keys fail with Unsatisfied when acceptExcess is false and otherwise
validation succeeds with the falsy False; the spec examples hold for
Record({a: Type(Integer)}, acceptExcess=false, acceptScarcity=false). -/
theorem record_excess_scarcity :
    (∀ (env : CheckEnv) (vps : List (PyObj × PyObj)) (k fc : PyObj)
        (cps : List (PyObj × PyObj)) (vkeys : List PyObj),
      pyMem vkeys k = false →
      dtLoop env vps false ((k, fc) :: cps) vkeys = .inl .unsat) ∧
    (∀ (env : CheckEnv) (cps vps : List (PyObj × PyObj)) (ae as : Bool)
        (leftover : List PyObj),
      validPairs cps = true →
      dtLoop env vps as cps (pyKeys vps) = .inr leftover →
      dtValidate env (vdict cps) (vdict vps) ae as =
        (if !leftover.isEmpty && !ae then .unsat else .pybool false)) ∧
    dtValidate envNil (vdict [(vstr "a", ptype .tInt)])
      (vdict [(vstr "a", vint 1), (vstr "b", vint 2)]) false false = .unsat ∧
    dtValidate envNil (vdict [(vstr "a", ptype .tInt)])
      (vdict []) false false = .unsat ∧
    dtValidate envNil (vdict [(vstr "a", ptype .tInt)])
      (vdict [(vstr "a", vint 1)]) false false = .pybool false := by
  refine ⟨?_, ?_, by simp, by simp, by simp⟩
  · intro env vps k fc cps vkeys hmem
    rw [dtLoop.eq_def]
    dsimp only
    rw [hmem]
    rfl
  · intro env cps vps ae as leftover hval hloop
    rw [dtValidate.eq_def]
    have hv : isValidDictC (vdict cps) = true := by rw [isValidDictC]; exact hval
    rw [hv]
    dsimp only
    rw [hloop]
    rfl

/-- Claim C9 witness. -/
theorem record_excess_scarcity_witness :
    dtLoop envNil [] false [(vstr "a", ptype PyType.tInt)] [] = .inl .unsat ∧
    dtValidate envNil (vdict [(vstr "a", ptype PyType.tInt)])
      (vdict [(vstr "a", vint 1), (vstr "b", vint 2)]) true false = .pybool false :=
  ⟨record_excess_scarcity.1 envNil [] (vstr "a") (ptype PyType.tInt) [] [] (by simp),
   record_excess_scarcity.2.1 envNil [(vstr "a", ptype PyType.tInt)]
     [(vstr "a", vint 1), (vstr "b", vint 2)] true false [vstr "b"] (by simp) (by simp)⟩

/-- Claim C10: the acceptExcess and acceptScarcity flags of an outer
record never propagate into a record-valued sub-constraint: both the
record validator and the sequence matcher dispatch a record sub-constraint
with the default flags acceptExcess=true and acceptScarcity=false, so
extra keys inside a nested record value never cause failure while missing
declared keys inside it always do, whatever the outer flags are. -/
theorem nested_record_default_flags :
    (∀ (env : CheckEnv) (vps : List (PyObj × PyObj)) (as : Bool)
        (k fc : PyObj) (rest : List (PyObj × PyObj)) (vkeys : List PyObj),
      pyMem vkeys k = true → isValidDictC fc = true →
      dtLoop env vps as ((k, fc) :: rest) vkeys =
        (if truthy (dtValidate env fc ((pyLookup vps k).getD vnone) true false)
         then .inl (dtValidate env fc ((pyLookup vps k).getD vnone) true false)
         else dtLoop env vps as rest (pyRemove vkeys k))) ∧
    (∀ (env : CheckEnv) (value : List PyObj) (c : PyObj) (rest : List PyObj)
        (i : Nat) (off : Int),
      isValidDictC c = true → ((i : Int) + off < (value.length : Int)) →
      lkLoopCore env value (c :: rest) i off =
        (if truthy (dtValidate env c (pyIndex value ((i : Int) + off)) true false)
         then .inl (dtValidate env c (pyIndex value ((i : Int) + off)) true false)
         else lkLoopCore env value rest (i + 1) off)) ∧
    dtValidate envNil (vdict [(vstr "a", vdict [(vstr "b", ptype .tInt)])])
      (vdict [(vstr "a", vdict [(vstr "b", vint 1), (vstr "c", vint 2)])])
      false false = .pybool false ∧
    dtValidate envNil (vdict [(vstr "a", vdict [(vstr "b", ptype .tInt)])])
      (vdict [(vstr "a", vdict [])]) true true = .unsat ∧
    lkValidate envNil (vlist [vdict [(vstr "b", ptype .tInt)]])
      (vlist [vdict [(vstr "b", vint 1), (vstr "c", vint 2)]]) = .pybool true := by
  refine ⟨?_, ?_, by simp, by simp, by simp⟩
  · intro env vps as k fc rest vkeys hmem hdc
    rw [dtLoop.eq_def]
    dsimp only
    rw [hmem]
    rcases isValidDictC_shape hdc with ⟨ht, -⟩
    rw [if_pos rfl, if_neg (by rw [ht]; exact Bool.noConfusion), if_pos hdc]
  · intro env value c rest i off hdc hlt
    rw [lkLoopCore.eq_def]
    dsimp only
    rcases isValidDictC_shape hdc with ⟨ht, hlk⟩
    rw [if_neg (not_le.mpr hlt), if_neg (by rw [ht]; exact Bool.noConfusion),
      if_neg (by rw [hlk]; exact Bool.noConfusion), if_pos hdc]

/-- Claim C10 witness. -/
theorem nested_record_default_flags_witness :
    dtLoop envNil [(vstr "a", vdict [])] false
        [(vstr "a", vdict [(vstr "b", ptype PyType.tInt)])] [vstr "a"] =
      (if truthy (dtValidate envNil (vdict [(vstr "b", ptype PyType.tInt)])
          ((pyLookup [(vstr "a", vdict [])] (vstr "a")).getD vnone) true false)
       then .inl (dtValidate envNil (vdict [(vstr "b", ptype PyType.tInt)])
          ((pyLookup [(vstr "a", vdict [])] (vstr "a")).getD vnone) true false)
       else dtLoop envNil [(vstr "a", vdict [])] false []
          (pyRemove [vstr "a"] (vstr "a"))) ∧
    lkLoopCore envNil [vdict []] [vdict [(vstr "b", ptype PyType.tInt)]] 0 0 =
      (if truthy (dtValidate envNil (vdict [(vstr "b", ptype PyType.tInt)])
          (pyIndex [vdict []] ((0 : Int) + 0)) true false)
       then .inl (dtValidate envNil (vdict [(vstr "b", ptype PyType.tInt)])
          (pyIndex [vdict []] ((0 : Int) + 0)) true false)
       else lkLoopCore envNil [vdict []] [] 1 0) :=
  ⟨nested_record_default_flags.1 envNil [(vstr "a", vdict [])] false (vstr "a")
      (vdict [(vstr "b", ptype PyType.tInt)]) [] [vstr "a"] (by simp) (by simp),
   nested_record_default_flags.2.1 envNil [vdict []]
      (vdict [(vstr "b", ptype PyType.tInt)]) [] 0 0 (by simp) (by simp)⟩

theorem getCC_countless (i : PyObj) (a : Int) :
    getConstraintClass (countless i a) = none := by
  rw [getConstraintClass, isValidDictC.eq_def, isValidLkC.eq_def, isValidOrC.eq_def]
  rfl

theorem getCC_multiple (i : PyObj) (a : Int) :
    getConstraintClass (multiple i a) = none := by
  rw [getConstraintClass, isValidDictC.eq_def, isValidLkC.eq_def, isValidOrC.eq_def]
  rfl

theorem getCC_isSome_shape {c : PyObj} (h : (getConstraintClass c).isSome = true) :
    isCountlessE c = false ∧ isMultipleE c = false := by
  cases c with
  | countless i a => rw [getCC_countless] at h; exact Bool.noConfusion h
  | multiple i a => rw [getCC_multiple] at h; exact Bool.noConfusion h
  | vint n => exact ⟨rfl, rfl⟩
  | vstr s => exact ⟨rfl, rfl⟩
  | vbool b => exact ⟨rfl, rfl⟩
  | vfloat f => exact ⟨rfl, rfl⟩
  | vnone => exact ⟨rfl, rfl⟩
  | vlist xs => exact ⟨rfl, rfl⟩
  | vtuple xs => exact ⟨rfl, rfl⟩
  | vdict ps => exact ⟨rfl, rfl⟩
  | ptype t => exact ⟨rfl, rfl⟩
  | orc xs => exact ⟨rfl, rfl⟩
  | pfun f a => exact ⟨rfl, rfl⟩

theorem expandMt_cons_not_mt {c : PyObj} (h : isMultipleE c = false) (rest : List PyObj) :
    expandMt (c :: rest) = c :: expandMt rest := by
  cases c <;> first | rfl | exact Bool.noConfusion h

theorem expandMt_replicate {c : PyObj} (h : isMultipleE c = false) (n : Nat) :
    expandMt (List.replicate n c) = List.replicate n c := by
  induction n with
  | zero => rfl
  | succ m ih =>
    rw [List.replicate_succ, expandMt_cons_not_mt h, ih]

theorem ctIdxFrom_none {l : List PyObj} (h : ∀ x ∈ l, isCountlessE x = false) :
    ∀ i, ctIdxFrom i l = [] := by
  induction l with
  | nil => intro i; rfl
  | cons x rest ih =>
    intro i
    rw [ctIdxFrom, h x (List.mem_cons_self x rest)]
    exact ih (fun y hy => h y (List.mem_cons_of_mem x hy)) (i + 1)

theorem simplifyElems_no_quant {l : List PyObj}
    (hmt : ∀ x ∈ l, isMultipleE x = false)
    (hct : ∀ x ∈ l, isCountlessE x = false) :
    simplifyElems l = l := by
  have hexp : expandMt l = l := by
    induction l with
    | nil => rfl
    | cons x rest ih =>
      rw [expandMt_cons_not_mt (hmt x (List.mem_cons_self x rest)),
        ih (fun y hy => hmt y (List.mem_cons_of_mem x hy))
           (fun y hy => hct y (List.mem_cons_of_mem x hy))]
  rw [simplifyElems, hexp, ctIdx, ctIdxFrom_none hct 0, groupLoop, rebuildLoop,
    List.drop_zero]

theorem validElems_replicate {c : PyObj} (h : (getConstraintClass c).isSome = true)
    (n : Nat) : validElems (List.replicate n c) = true := by
  induction n with
  | zero => rw [List.replicate_zero, validElems]
  | succ m ih =>
    rw [List.replicate_succ, validElems.eq_def]
    dsimp only
    rw [h, ih]
    rfl

/-- Claim C5: for every n and every recognised inner constraint c, the
sequence constraint [Multiple(c, n)] validates every value with exactly
the same outcome as the sequence of n consecutive copies of c (Multiple is
eliminated by simplification, a count of 0 contributing no slots). -/
theorem multiple_replicate_equiv (env : CheckEnv) (c v : PyObj) (n : Nat)
    (h : (getConstraintClass c).isSome = true) :
    lkValidate env (vlist [multiple c (n : Int)]) v =
      lkValidate env (vlist (List.replicate n c)) v := by
  rcases getCC_isSome_shape h with ⟨hct, hmt⟩
  have hrep : ∀ x ∈ List.replicate n c, x = c := fun x hx => List.eq_of_mem_replicate hx
  have hvalid1 : isValidLkC (vlist [multiple c (n : Int)]) = true := by
    rw [isValidLkC, validElems.eq_def]
    dsimp only
    rw [getCC_multiple, h, validElems]
    rfl
  have hvalid2 : isValidLkC (vlist (List.replicate n c)) = true := by
    rw [isValidLkC]
    exact validElems_replicate h n
  have hsimp1 : simplifyElems [multiple c (n : Int)] = List.replicate n c := by
    have hexp : expandMt [multiple c (n : Int)] = List.replicate n c := by
      rw [expandMt, expandMt, List.append_nil, Int.toNat_natCast]
    rw [simplifyElems, hexp, ctIdx,
      ctIdxFrom_none (fun x hx => (hrep x hx) ▸ hct) 0, groupLoop, rebuildLoop,
      List.drop_zero]
  have hsimp2 : simplifyElems (List.replicate n c) = List.replicate n c :=
    simplifyElems_no_quant (fun x hx => (hrep x hx) ▸ hmt)
      (fun x hx => (hrep x hx) ▸ hct)
  have hsc1 : simplifyC (vlist [multiple c (n : Int)]) =
      some (vlist (List.replicate n c)) := by
    rw [simplifyC.eq_def]
    dsimp only
    rw [hvalid1]
    rw [hsimp1]
    rfl
  have hsc2 : simplifyC (vlist (List.replicate n c)) =
      some (vlist (List.replicate n c)) := by
    rw [simplifyC.eq_def]
    dsimp only
    rw [hvalid2]
    rw [hsimp2]
    rfl
  rw [lkValidate_some hsc1, lkValidate_some hsc2]

/-- Claim C5 witness. -/
theorem multiple_replicate_equiv_witness :
    lkValidate envNil (vlist [multiple (ptype PyType.tInt) ((3 : Nat) : Int)])
        (vlist [vint 1, vint 2, vint 3]) =
      lkValidate envNil (vlist (List.replicate 3 (ptype PyType.tInt)))
        (vlist [vint 1, vint 2, vint 3]) :=
  multiple_replicate_equiv envNil (ptype PyType.tInt)
    (vlist [vint 1, vint 2, vint 3]) 3 (by simp)

theorem ctRun_spec (env : CheckEnv) (inner : PyObj) :
    ∀ (l : List PyObj) (r : Nat), ctRun env inner l = .inr r →
      r ≤ l.length ∧
      (∀ (j : Nat) (hj : j < l.length), j < r →
        countlessSat env inner (l.get ⟨j, hj⟩) = .inr true) ∧
      (∀ (hr : r < l.length), countlessSat env inner (l.get ⟨r, hr⟩) = .inr false) := by
  intro l
  induction l with
  | nil =>
    intro r h
    rw [ctRun] at h
    injection h with h2
    subst h2
    refine ⟨Nat.le_refl 0, ?_, ?_⟩
    · intro j hj
      exact absurd hj (by simp)
    · intro hr
      exact absurd hr (by simp)
  | cons v vs ih =>
    intro r h
    rw [ctRun] at h
    split at h
    · exact Sum.noConfusion h
    · next hsat =>
      split at h
      · exact Sum.noConfusion h
      · next m hrec =>
        injection h with h2
        subst h2
        rcases ih m hrec with ⟨hle, hall, hstop⟩
        refine ⟨by simp [List.length_cons]; omega, ?_, ?_⟩
        · intro j hj hjr
          cases j with
          | zero => exact hsat
          | succ j2 =>
            exact hall j2 (by simp at hj; omega) (by omega)
        · intro hr
          exact hstop (by simp at hr; omega)
    · next hsat =>
      injection h with h2
      subst h2
      refine ⟨Nat.zero_le _, ?_, ?_⟩
      · intro j hj hj0
        exact absurd hj0 (by omega)
      · intro hr
        exact hsat

theorem lkLoopCore_countless (env : CheckEnv) (value : List PyObj) (inner : PyObj)
    (al : Int) (rest : List PyObj) (i : Nat) (off : Int)
    (hlt : (i : Int) + off < (value.length : Int)) :
    lkLoopCore env value (countless inner al :: rest) i off =
      (match ctRun env inner (value.drop ((i : Int) + off).toNat) with
       | .inl _ => .inl .crash
       | .inr run =>
         if (run : Int) < al then .inl .unsat
         else lkLoopCore env value rest (i + 1) (off + run - 1)) := by
  rw [lkLoopCore.eq_def]
  dsimp only
  rw [if_neg (not_le.mpr hlt),
    if_neg (show ¬(isValidTypeC (countless inner al) = true) from Bool.noConfusion),
    if_neg (show ¬(isValidLkC (countless inner al) = true) from by
      rw [isValidLkC.eq_def]; exact Bool.noConfusion),
    if_neg (show ¬(isValidDictC (countless inner al) = true) from by
      rw [isValidDictC.eq_def]; exact Bool.noConfusion),
    if_neg (show ¬(isValidOrC (countless inner al) = true) from by
      rw [isValidOrC.eq_def]; exact Bool.noConfusion),
    if_neg (show ¬(isValidCheckC (countless inner al) = true) from Bool.noConfusion)]

/-- Claim C2: the Countless branch of the sequence matcher greedily
consumes the maximal run of consecutive positions each individually
satisfying the inner constraint in the sense of Countless.validate (every
position before the run length satisfies it and the first position after
it, if any, does not), and the whole check fails with Unsatisfied when
that run is shorter than at_least; Sequence([Countless(Type(Integer),
atLeast=1)]) rejects [] and ["x"] and accepts [1] and [1..8]. -/
theorem countless_greedy_minimum :
    (∀ (env : CheckEnv) (inner : PyObj) (l : List PyObj) (r : Nat),
      ctRun env inner l = .inr r →
      r ≤ l.length ∧
      (∀ (j : Nat) (hj : j < l.length), j < r →
        countlessSat env inner (l.get ⟨j, hj⟩) = .inr true) ∧
      (∀ (hr : r < l.length), countlessSat env inner (l.get ⟨r, hr⟩) = .inr false)) ∧
    (∀ (env : CheckEnv) (value : List PyObj) (inner : PyObj) (al : Int)
        (rest : List PyObj) (i : Nat) (off : Int),
      (i : Int) + off < (value.length : Int) →
      lkLoopCore env value (countless inner al :: rest) i off =
        (match ctRun env inner (value.drop ((i : Int) + off).toNat) with
         | .inl _ => .inl .crash
         | .inr run =>
           if (run : Int) < al then .inl .unsat
           else lkLoopCore env value rest (i + 1) (off + run - 1))) ∧
    lkValidate envNil (vlist [countless (ptype .tInt) 1]) (vlist []) = .unsat ∧
    lkValidate envNil (vlist [countless (ptype .tInt) 1]) (vlist [vstr "x"]) = .unsat ∧
    lkValidate envNil (vlist [countless (ptype .tInt) 1]) (vlist [vint 1]) = .pybool true ∧
    lkValidate envNil (vlist [countless (ptype .tInt) 1])
      (vlist [vint 1, vint 2, vint 3, vint 4, vint 5, vint 6, vint 7, vint 8]) =
      .pybool true := by
  refine ⟨?_, ?_, by simp, by simp, by simp, by simp⟩
  · intro env inner l r h
    exact ctRun_spec env inner l r h
  · intro env value inner al rest i off hlt
    exact lkLoopCore_countless env value inner al rest i off hlt

/-- Claim C2 witness. -/
theorem countless_greedy_minimum_witness :
    ((2 : Nat) ≤ [vint 1, vint 2].length ∧
      (∀ (j : Nat) (hj : j < [vint 1, vint 2].length), j < 2 →
        countlessSat envNil (ptype PyType.tInt) ([vint 1, vint 2].get ⟨j, hj⟩) =
          .inr true) ∧
      (∀ (hr : (2 : Nat) < [vint 1, vint 2].length),
        countlessSat envNil (ptype PyType.tInt) ([vint 1, vint 2].get ⟨2, hr⟩) =
          .inr false)) ∧
    lkLoopCore envNil [vstr "s"] [countless (ptype PyType.tInt) 1] 0 0 =
      (match ctRun envNil (ptype PyType.tInt) ([vstr "s"].drop ((0 : Int) + 0).toNat) with
       | .inl _ => .inl .crash
       | .inr run =>
         if (run : Int) < 1 then .inl .unsat
         else lkLoopCore envNil [vstr "s"] [] (0 + 1) (0 + run - 1)) :=
  ⟨countless_greedy_minimum.1 envNil (ptype PyType.tInt) [vint 1, vint 2] 2 (by simp),
   countless_greedy_minimum.2.1 envNil [vstr "s"] (ptype PyType.tInt) 1 [] 0 0
     (by simp)⟩

theorem lkLoopCore_inv (env : CheckEnv) (value : List PyObj) :
    ∀ (pat : List PyObj) (i : Nat) (off off2 : Int),
      -(i : Int) ≤ off → (i : Int) + off ≤ (value.length : Int) →
      lkLoopCore env value pat i off = .inr off2 →
      ((pat.length : Int) + i + off2 ≤ (value.length : Int) ∧
        -((pat.length : Int) + i) ≤ off2) := by
  intro pat
  induction pat with
  | nil =>
    intro i off off2 hlo hhi h
    rw [lkLoopCore] at h
    injection h with h2
    subst h2
    simp only [List.length_nil, Nat.cast_zero]
    omega
  | cons c rest ih =>
    intro i off off2 hlo hhi h
    rw [lkLoopCore.eq_def] at h
    dsimp only at h
    by_cases hb : (i : Int) + off ≥ (value.length : Int)
    · rw [if_pos hb] at h
      exact Sum.noConfusion h
    · rw [if_neg hb] at h
      have hstep : ∀ off3 : Int, -((i : Int) + 1) ≤ off3 →
          ((i : Int) + 1) + off3 ≤ (value.length : Int) →
          lkLoopCore env value rest (i + 1) off3 = .inr off2 →
          (((c :: rest).length : Int) + i + off2 ≤ (value.length : Int) ∧
            -(((c :: rest).length : Int) + i) ≤ off2) := by
        intro off3 ho3 hh3 h3
        have hih := ih (i + 1) off3 off2 (by push_cast; omega) (by push_cast at hh3 ⊢; omega) h3
        rcases hih with ⟨a, b⟩
        constructor <;> (simp only [List.length_cons] at *; push_cast at *; omega)
      by_cases h1 : isValidTypeC c = true
      · rw [if_pos h1] at h
        split at h
        · exact Sum.noConfusion h
        · exact hstep off (by omega) (by omega) h
      · rw [if_neg h1] at h
        by_cases h2 : isValidLkC c = true
        · rw [if_pos h2] at h
          split at h
          · exact Sum.noConfusion h
          · exact hstep off (by omega) (by omega) h
        · rw [if_neg h2] at h
          by_cases h3 : isValidDictC c = true
          · rw [if_pos h3] at h
            split at h
            · exact Sum.noConfusion h
            · exact hstep off (by omega) (by omega) h
          · rw [if_neg h3] at h
            by_cases h4 : isValidOrC c = true
            · rw [if_pos h4] at h
              split at h
              · exact Sum.noConfusion h
              · exact hstep off (by omega) (by omega) h
            · rw [if_neg h4] at h
              by_cases h5 : isValidCheckC c = true
              · rw [if_pos h5] at h
                split at h
                · exact Sum.noConfusion h
                · exact hstep off (by omega) (by omega) h
              · rw [if_neg h5] at h
                split at h
                · next inner al =>
                  split at h
                  · exact Sum.noConfusion h
                  · next run hrun =>
                    split at h
                    · exact Sum.noConfusion h
                    · next hge =>
                      have hrle := (ctRun_spec env inner _ run hrun).1
                      have hdl : (value.drop ((i : Int) + off).toNat).length
                          = value.length - ((i : Int) + off).toNat :=
                        List.length_drop _ _
                      have hnn : (0 : Int) ≤ (i : Int) + off := by omega
                      have htn : ((((i : Int) + off).toNat : Nat) : Int) = (i : Int) + off :=
                        Int.toNat_of_nonneg hnn
                      rw [hdl] at hrle
                      apply hstep (off + (run : Int) - 1)
                      · omega
                      · omega
                      · exact h
                · exact hstep off (by omega) (by omega) h

/-- Claim C1: once the matching loop has processed all pattern slots
(returning a final offset), the validation succeeds with True exactly when
the consumed length, pattern length plus offset, equals the length of the
value, fails with Unsatisfied when the value is longer, and the consumed
length never exceeds the value length; a value too short for the remaining
pattern fails with Unsatisfied inside the loop; the spec examples for
[Type(Integer), Type(Integer), Type(Integer)] hold. -/
theorem lk_exact_arity :
    (∀ (env : CheckEnv) (value pat : List PyObj) (i : Nat) (off off2 : Int),
      -(i : Int) ≤ off → (i : Int) + off ≤ (value.length : Int) →
      lkLoopCore env value pat i off = .inr off2 →
      (pat.length : Int) + i + off2 ≤ (value.length : Int)) ∧
    (∀ (env : CheckEnv) (c v sc : PyObj) (off2 : Int),
      simplifyC c = some sc →
      (typeOf v = PyType.tList ∨ typeOf v = PyType.tTuple) →
      lkLoopCore env (lkElems v) (lkElems sc) 0 0 = .inr off2 →
      ((lkValidate env c v = .pybool true ↔
        ((lkElems sc).length : Int) + off2 = ((lkElems v).length : Int)) ∧
       (((lkElems sc).length : Int) + off2 < ((lkElems v).length : Int) →
        lkValidate env c v = .unsat))) ∧
    (∀ (env : CheckEnv) (value : List PyObj) (c : PyObj) (rest : List PyObj)
        (i : Nat) (off : Int),
      (value.length : Int) ≤ (i : Int) + off →
      lkLoopCore env value (c :: rest) i off = .inl .unsat) ∧
    lkValidate envNil (vlist [ptype .tInt, ptype .tInt, ptype .tInt])
      (vlist [vint 1, vint 2, vint 3]) = .pybool true ∧
    lkValidate envNil (vlist [ptype .tInt, ptype .tInt, ptype .tInt])
      (vlist [vint 1, vint 2]) = .unsat ∧
    lkValidate envNil (vlist [ptype .tInt, ptype .tInt, ptype .tInt])
      (vlist [vint 1, vint 2, vint 3, vint 4]) = .unsat := by
  refine ⟨?_, ?_, ?_, by simp, by simp, by simp⟩
  · intro env value pat i off off2 hlo hhi h
    exact (lkLoopCore_inv env value pat i off off2 hlo hhi h).1
  · intro env c v sc off2 hsc hv hcore
    have hbne : (typeOf v != PyType.tList && typeOf v != PyType.tTuple) = false := by
      rcases hv with hv | hv <;> rw [hv] <;> rfl
    have hres : lkValidate env c v =
        (if ((lkElems sc).length : Int) + off2 < ((lkElems v).length : Int)
         then .unsat else .pybool true) := by
      rw [lkValidate_some hsc, hbne]
      try dsimp only
      rw [hcore]
      rfl
    have hle := lkLoopCore_inv env (lkElems v) (lkElems sc) 0 0 off2
      (by omega) (by omega) hcore
    refine ⟨?_, ?_⟩
    · rw [hres]
      constructor
      · intro h
        by_cases hlt : ((lkElems sc).length : Int) + off2 < ((lkElems v).length : Int)
        · rw [if_pos hlt] at h
          exact absurd h (by exact fun hh => VResult.noConfusion hh)
        · have h1 := hle.1
          push_cast at h1
          omega
      · intro heq
        rw [if_neg (by omega)]
    · intro hlt
      rw [hres, if_pos hlt]
  · intro env value c rest i off hge
    rw [lkLoopCore.eq_def]
    dsimp only
    rw [if_pos hge]

/-- Claim C1 witness. -/
theorem lk_exact_arity_witness :
    (lkValidate envNil (vlist [ptype PyType.tInt]) (vlist [vint 1]) = .pybool true ↔
      (([ptype PyType.tInt] : List PyObj).length : Int) + 0 =
        (([vint 1] : List PyObj).length : Int)) ∧
    lkLoopCore envNil [] [ptype PyType.tInt] 0 0 = .inl .unsat := by
  constructor
  · have h := (lk_exact_arity.2.1 envNil (vlist [ptype PyType.tInt])
      (vlist [vint 1]) (vlist [ptype PyType.tInt]) 0 (by simp) (Or.inl rfl) (by simp)).1
    simpa using h
  · exact lk_exact_arity.2.2.1 envNil [] (ptype PyType.tInt) [] 0 0 (by simp)

theorem beqComm {α : Type} [DecidableEq α] (a b : α) : (a == b) = (b == a) := by
  by_cases h : a = b
  · subst h; rfl
  · rw [beq_false_of_ne h, beq_false_of_ne (Ne.symm h)]

mutual

theorem pyEq_symm : ∀ (a b : PyObj), pyEq a b = pyEq b a := by
  intro a b
  cases a <;> cases b <;> (rw [pyEq.eq_def]; try rw [pyEq.eq_def]) <;>
    first
      | rfl
      | (dsimp only; rw [beqComm]; done)
      | (dsimp only; rename_i f1 a1 f2 a2; rw [beqComm f1 f2, beqComm a1 a2]; done)
      | (dsimp only; rw [pyEq_symm _ _, beqComm]; done)
      | (dsimp only; exact pyEqL_symm _ _)
      | (dsimp only
         rw [beqComm]
         rename_i ps qs
         cases hx : dictLe ps qs <;> cases hy : dictLe qs ps <;>
           simp [hx, hy])
termination_by a b => sizeOf a + sizeOf b
decreasing_by all_goals (simp_wf <;> omega)

theorem pyEqL_symm : ∀ (xs ys : List PyObj), pyEqL xs ys = pyEqL ys xs := by
  intro xs ys
  cases xs <;> cases ys <;> (rw [pyEqL.eq_def]; try rw [pyEqL.eq_def]) <;>
    first
      | rfl
      | (dsimp only; rw [pyEq_symm _ _, pyEqL_symm _ _])
termination_by xs ys => sizeOf xs + sizeOf ys
decreasing_by all_goals (simp_wf <;> omega)

end

/-- A Countless object never compares equal to a non-Countless object. -/
theorem pyEq_countless_ne : ∀ (y i : PyObj) (a : Int),
    isCountlessE y = false → pyEq (countless i a) y = false := by
  intro y i a h
  cases y <;> first
    | (rw [pyEq.eq_def]; done)
    | (exact absurd h (by simp [isCountlessE]))

/-- The keys and values of the pairs of a dictionary, flattened. -/
def objsOf : List (PyObj × PyObj) → List PyObj
  | [] => []
  | (k, v) :: rest => k :: v :: objsOf rest

theorem objsOf_sizeOf : ∀ (ps : List (PyObj × PyObj)) (x : PyObj),
    x ∈ objsOf ps → sizeOf x < sizeOf ps := by
  intro ps
  induction ps with
  | nil => intro x hx; cases hx
  | cons p rest ih =>
    obtain ⟨k, v⟩ := p
    intro x hx
    rw [objsOf, List.mem_cons, List.mem_cons] at hx
    rcases hx with h | h | h
    · subst h; simp; omega
    · subst h; simp; omega
    · have := ih x h; simp; omega

theorem mem_objsOf_of_mem : ∀ {ps : List (PyObj × PyObj)} {k v : PyObj},
    (k, v) ∈ ps → k ∈ objsOf ps ∧ v ∈ objsOf ps := by
  intro ps
  induction ps with
  | nil => intro k v h; cases h
  | cons p rest ih =>
    obtain ⟨k2, v2⟩ := p
    intro k v h
    rcases List.mem_cons.mp h with h | h
    · obtain ⟨h1, h2⟩ := Prod.mk.injEq .. ▸ h
      injection h with h1 h2
      subst h1; subst h2
      exact ⟨List.mem_cons_self _ _, List.mem_cons_of_mem _ (List.mem_cons_self _ _)⟩
    · obtain ⟨h1, h2⟩ := ih h
      exact ⟨List.mem_cons_of_mem _ (List.mem_cons_of_mem _ h1),
             List.mem_cons_of_mem _ (List.mem_cons_of_mem _ h2)⟩

theorem mem_objsOf_of_key : ∀ {ps : List (PyObj × PyObj)} {k : PyObj},
    k ∈ pyKeys ps → k ∈ objsOf ps := by
  intro ps k h
  rw [pyKeys] at h
  obtain ⟨p, hp, he⟩ := List.mem_map.mp h
  obtain ⟨k2, v2⟩ := p
  cases he
  exact (mem_objsOf_of_mem hp).1

/-- dictFindEq when the key is present: compare with the first stored value. -/
theorem dictFindEq_some : ∀ (qs : List (PyObj × PyObj)) (k v w : PyObj),
    pyLookup qs k = some w → dictFindEq qs k v = pyEq v w := by
  intro qs
  induction qs with
  | nil => intro k v w h; exact Option.noConfusion h
  | cons p rest ih =>
    obtain ⟨k2, w2⟩ := p
    intro k v w h
    rw [pyLookup] at h
    rw [dictFindEq]
    by_cases hk : pyEq k2 k = true
    · rw [if_pos hk] at h ⊢
      injection h with h; subst h; rfl
    · rw [if_neg hk] at h ⊢
      exact ih k v w h

/-- dictFindEq when the key is absent. -/
theorem dictFindEq_none : ∀ (qs : List (PyObj × PyObj)) (k v : PyObj),
    pyLookup qs k = none → dictFindEq qs k v = false := by
  intro qs
  induction qs with
  | nil => intro k v h; rw [dictFindEq]
  | cons p rest ih =>
    obtain ⟨k2, w2⟩ := p
    intro k v h
    rw [pyLookup] at h
    rw [dictFindEq]
    by_cases hk : pyEq k2 k = true
    · rw [if_pos hk] at h; exact Option.noConfusion h
    · rw [if_neg hk] at h ⊢; exact ih k v h

/-- dictLe as a per-pair condition. -/
theorem dictLe_iff : ∀ (ps qs : List (PyObj × PyObj)),
    dictLe ps qs = true ↔ ∀ kv ∈ ps, dictFindEq qs kv.1 kv.2 = true := by
  intro ps qs
  induction ps with
  | nil => simp [dictLe]
  | cons p rest ih =>
    obtain ⟨k, v⟩ := p
    rw [dictLe, Bool.and_eq_true, ih]
    simp

/-- A successful lookup comes from a pair whose key compares equal. -/
theorem pyLookup_mem : ∀ (qs : List (PyObj × PyObj)) (k w : PyObj),
    pyLookup qs k = some w → ∃ k2, (k2, w) ∈ qs ∧ pyEq k2 k = true := by
  intro qs
  induction qs with
  | nil => intro k w h; exact Option.noConfusion h
  | cons p rest ih =>
    obtain ⟨k2, w2⟩ := p
    intro k w h
    rw [pyLookup] at h
    by_cases hk : pyEq k2 k = true
    · rw [if_pos hk] at h
      injection h with h; subst h
      exact ⟨k2, List.mem_cons_self _ _, hk⟩
    · rw [if_neg hk] at h
      obtain ⟨k3, hm, he⟩ := ih k w h
      exact ⟨k3, List.mem_cons_of_mem _ hm, he⟩

/-- Keys that compare equal to the same keys of the dictionary look up the
same value. -/
theorem pyLookup_congr : ∀ (qs : List (PyObj × PyObj)) (k k2 : PyObj),
    (∀ x ∈ pyKeys qs, pyEq x k = pyEq x k2) → pyLookup qs k = pyLookup qs k2 := by
  intro qs
  induction qs with
  | nil => intro k k2 _; rfl
  | cons p rest ih =>
    obtain ⟨kh, wh⟩ := p
    intro k k2 hcong
    have hh : pyEq kh k = pyEq kh k2 :=
      hcong kh (by rw [pyKeys]; exact List.mem_cons_self _ _)
    rw [pyLookup, pyLookup, hh]
    by_cases hk : pyEq kh k2 = true
    · rw [if_pos hk, if_pos hk]
    · rw [if_neg hk, if_neg hk]
      exact ih k k2 (fun x hx => hcong x (by
        rw [pyKeys] at hx ⊢; exact List.mem_cons_of_mem _ hx))

/-- Transitivity of Python equality at dictionaries, given transitivity
below the combined size of the three dictionaries. -/
theorem pyEqD_trans_aux (ps qs rs : List (PyObj × PyObj))
    (ih : ∀ x y z : PyObj,
      sizeOf x + sizeOf y + sizeOf z < sizeOf ps + sizeOf qs + sizeOf rs →
      pyEq x y = true → pyEq y z = true → pyEq x z = true)
    (hab : pyEq (vdict ps) (vdict qs) = true)
    (hbc : pyEq (vdict qs) (vdict rs) = true) :
    pyEq (vdict ps) (vdict rs) = true := by
  rw [pyEq.eq_def] at hab hbc ⊢
  dsimp only at hab hbc ⊢
  rw [Bool.and_eq_true, Bool.and_eq_true] at hab hbc ⊢
  obtain ⟨⟨hlen1, hle_pq⟩, hle_qp⟩ := hab
  obtain ⟨⟨hlen2, hle_qr⟩, hle_rq⟩ := hbc
  have hlen1e : ps.length = qs.length := by simpa using hlen1
  have hlen2e : qs.length = rs.length := by simpa using hlen2
  refine ⟨⟨by simp [hlen1e, hlen2e], ?_⟩, ?_⟩
  · rw [dictLe_iff]
    rintro ⟨k, v⟩ hmem
    obtain ⟨hkp, hvp⟩ := mem_objsOf_of_mem hmem
    have h1 : dictFindEq qs k v = true := (dictLe_iff ps qs).mp hle_pq _ hmem
    rcases hq : pyLookup qs k with _ | w
    · rw [dictFindEq_none qs k v hq] at h1; exact Bool.noConfusion h1
    rw [dictFindEq_some qs k v w hq] at h1
    obtain ⟨k2, hk2mem, hk2k⟩ := pyLookup_mem qs k w hq
    obtain ⟨hk2q, hwq⟩ := mem_objsOf_of_mem hk2mem
    have h2 : dictFindEq rs k2 w = true := (dictLe_iff qs rs).mp hle_qr _ hk2mem
    rcases hr : pyLookup rs k2 with _ | u
    · rw [dictFindEq_none rs k2 w hr] at h2; exact Bool.noConfusion h2
    rw [dictFindEq_some rs k2 w u hr] at h2
    obtain ⟨k3, hk3mem, _⟩ := pyLookup_mem rs k2 u hr
    have hur : u ∈ objsOf rs := (mem_objsOf_of_mem hk3mem).2
    have hcong : pyLookup rs k = pyLookup rs k2 := by
      apply pyLookup_congr
      intro x hx
      have hxr : x ∈ objsOf rs := mem_objsOf_of_key hx
      have hxs := objsOf_sizeOf rs x hxr
      have hks := objsOf_sizeOf ps k hkp
      have hk2s := objsOf_sizeOf qs k2 hk2q
      rcases hxk : pyEq x k with _ | _ <;> rcases hxk2 : pyEq x k2 with _ | _
      · rfl
      · have hk2k2 : pyEq k2 k = true := hk2k
        have : pyEq x k = true := ih x k2 k (by omega) hxk2 hk2k2
        rw [hxk] at this; exact Bool.noConfusion this
      · have hkk2 : pyEq k k2 = true := by rw [pyEq_symm]; exact hk2k
        have : pyEq x k2 = true := ih x k k2 (by omega) hxk hkk2
        rw [hxk2] at this; exact Bool.noConfusion this
      · rfl
    have hvu : pyEq v u = true := by
      apply ih v w u _ h1 h2
      have := objsOf_sizeOf ps v hvp
      have := objsOf_sizeOf qs w hwq
      have := objsOf_sizeOf rs u hur
      omega
    show dictFindEq rs k v = true
    rw [dictFindEq_some rs k v u (hcong.trans hr)]
    exact hvu
  · rw [dictLe_iff]
    rintro ⟨k, v⟩ hmem
    obtain ⟨hkr, hvr⟩ := mem_objsOf_of_mem hmem
    have h1 : dictFindEq qs k v = true := (dictLe_iff rs qs).mp hle_rq _ hmem
    rcases hq : pyLookup qs k with _ | w
    · rw [dictFindEq_none qs k v hq] at h1; exact Bool.noConfusion h1
    rw [dictFindEq_some qs k v w hq] at h1
    obtain ⟨k2, hk2mem, hk2k⟩ := pyLookup_mem qs k w hq
    obtain ⟨hk2q, hwq⟩ := mem_objsOf_of_mem hk2mem
    have h2 : dictFindEq ps k2 w = true := (dictLe_iff qs ps).mp hle_qp _ hk2mem
    rcases hr : pyLookup ps k2 with _ | u
    · rw [dictFindEq_none ps k2 w hr] at h2; exact Bool.noConfusion h2
    rw [dictFindEq_some ps k2 w u hr] at h2
    obtain ⟨k3, hk3mem, _⟩ := pyLookup_mem ps k2 u hr
    have hup : u ∈ objsOf ps := (mem_objsOf_of_mem hk3mem).2
    have hcong : pyLookup ps k = pyLookup ps k2 := by
      apply pyLookup_congr
      intro x hx
      have hxp : x ∈ objsOf ps := mem_objsOf_of_key hx
      have hxs := objsOf_sizeOf ps x hxp
      have hks := objsOf_sizeOf rs k hkr
      have hk2s := objsOf_sizeOf qs k2 hk2q
      rcases hxk : pyEq x k with _ | _ <;> rcases hxk2 : pyEq x k2 with _ | _
      · rfl
      · have hk2k2 : pyEq k2 k = true := hk2k
        have : pyEq x k = true := ih x k2 k (by omega) hxk2 hk2k2
        rw [hxk] at this; exact Bool.noConfusion this
      · have hkk2 : pyEq k k2 = true := by rw [pyEq_symm]; exact hk2k
        have : pyEq x k2 = true := ih x k k2 (by omega) hxk hkk2
        rw [hxk2] at this; exact Bool.noConfusion this
      · rfl
    have hvu : pyEq v u = true := by
      apply ih v w u _ h1 h2
      have := objsOf_sizeOf rs v hvr
      have := objsOf_sizeOf qs w hwq
      have := objsOf_sizeOf ps u hup
      omega
    show dictFindEq ps k v = true
    rw [dictFindEq_some ps k v u (hcong.trans hr)]
    exact hvu

mutual

theorem pyEq_trans : ∀ (a b c : PyObj),
    pyEq a b = true → pyEq b c = true → pyEq a c = true := by
  intro a b c hab hbc
  cases ha : a <;> cases hb : b <;> rw [ha, hb] at hab <;>
    (try (rw [pyEq.eq_def] at hab; exact absurd hab Bool.noConfusion)) <;>
  cases hc : c <;> rw [hb, hc] at hbc <;>
    (try (rw [pyEq.eq_def] at hbc; exact absurd hbc Bool.noConfusion)) <;>
  first
    | (rw [pyEq.eq_def]; done)
    | (rw [pyEq.eq_def] at hab hbc ⊢
       dsimp only at hab hbc ⊢
       exact pyEqL_trans _ _ _ hab hbc)
    | (exact pyEqD_trans_aux _ _ _ (fun x y z hs hxy hyz => pyEq_trans x y z hxy hyz) hab hbc)
    | (rw [pyEq.eq_def] at hab hbc ⊢
       dsimp only at hab hbc ⊢
       rw [Bool.and_eq_true] at hab hbc ⊢
       simp only [beq_iff_eq] at hab hbc ⊢
       exact ⟨pyEq_trans _ _ _ hab.1 hbc.1, hab.2.trans hbc.2⟩)
    | (rw [pyEq.eq_def] at hab hbc ⊢
       dsimp only at hab hbc ⊢
       rw [Bool.and_eq_true] at hab hbc ⊢
       simp only [beq_iff_eq] at hab hbc ⊢
       exact ⟨hab.1.trans hbc.1, hab.2.trans hbc.2⟩)
    | (rw [pyEq.eq_def] at hab hbc ⊢
       dsimp only at hab hbc ⊢
       simp only [beq_iff_eq] at hab hbc ⊢
       (try split at hab) <;> (try split at hbc) <;> (try split) <;>
         first
           | omega
           | (subst_vars
              (try simp only [Bool.not_eq_true] at *)
              all_goals subst_vars
              all_goals
                first
                  | rfl
                  | omega
                  | (exact absurd (show true = false by assumption) (by simp))
                  | (exact absurd trivial (by assumption))))
termination_by a b c => sizeOf a + sizeOf b + sizeOf c
decreasing_by all_goals (subst_vars; simp_wf <;> omega)

theorem pyEqL_trans : ∀ (xs ys zs : List PyObj),
    pyEqL xs ys = true → pyEqL ys zs = true → pyEqL xs zs = true := by
  intro xs ys zs hab hbc
  cases hxs : xs <;> cases hys : ys <;> rw [hxs, hys] at hab <;>
    (try (rw [pyEqL.eq_def] at hab; exact absurd hab Bool.noConfusion)) <;>
  cases hzs : zs <;> rw [hys, hzs] at hbc <;>
    (try (rw [pyEqL.eq_def] at hbc; exact absurd hbc Bool.noConfusion)) <;>
  first
    | (rw [pyEqL.eq_def]; done)
    | (rw [pyEqL.eq_def] at hab hbc ⊢
       dsimp only at hab hbc ⊢
       rw [Bool.and_eq_true] at hab hbc ⊢
       exact ⟨pyEq_trans _ _ _ hab.1 hbc.1, pyEqL_trans _ _ _ hab.2 hbc.2⟩)
termination_by xs ys zs => sizeOf xs + sizeOf ys + sizeOf zs
decreasing_by all_goals (subst_vars; simp_wf <;> omega)

end

/-- What the backward scan guarantees: it stops at or before the seed, every
scanned element compares equal to the inner constraint, and the element just
below the returned start (if any) does not. -/
theorem leftScan_spec (e : List PyObj) (I : PyObj) :
    ∀ (k s : Nat) (add : Int), leftScan e I k = (s, add) →
      s ≤ k ∧
      (∀ j, s ≤ j → j < k → pyEq (e.getD j vnone) I = true) ∧
      (0 < s → pyEq (e.getD (s - 1) vnone) I = false) := by
  intro k
  induction k with
  | zero =>
    intro s add h
    rw [leftScan] at h
    injection h with h1 h2
    subst h1
    exact ⟨Nat.le_refl _, fun j hj1 hj2 => absurd hj2 (Nat.not_lt_zero j), fun h => absurd h (by omega)⟩
  | succ k ih =>
    intro s add h
    rw [leftScan] at h
    rcases hp : pyEq (e.getD k vnone) I with _ | _
    · rw [hp] at h
      simp only [Bool.false_eq_true, if_false] at h
      injection h with h1 h2
      subst h1
      refine ⟨Nat.le_refl _, fun j hj1 hj2 => absurd (Nat.lt_of_le_of_lt hj1 hj2) (by omega), fun _ => ?_⟩
      simpa using hp
    · rw [hp] at h
      simp only [if_true] at h
      injection h with h1 h2
      subst h1
      obtain ⟨ih1, ih2, ih3⟩ := ih (leftScan e I k).1 (leftScan e I k).2 rfl
      refine ⟨Nat.le_succ_of_le ih1, fun j hj1 hj2 => ?_, ih3⟩
      rcases Nat.lt_or_ge j k with hlt | hge
      · exact ih2 j hj1 hlt
      · have : j = k := by omega
        subst this
        exact hp

/-- What the forward scan guarantees: every element in the scanned range is
either a plain element equal to the inner constraint (and not removed) or an
absorbed Countless with an equal inner (and removed); the element just past
the returned end (if any) fails both the Countless-inner test and the plain
equality test; removed indexes lie in the scanned range. -/
theorem rightScan_spec (e : List PyObj) (I : PyObj) (hI : isCountlessE I = false) :
    ∀ (fuel si en : Nat) (add : Int) (rem : List Nat),
      1 ≤ si → si ≤ e.length → e.length - si ≤ fuel →
      rightScan e I si = (en, add, rem) →
      si ≤ en + 1 ∧ en + 1 ≤ e.length ∧
      (∀ j, si ≤ j → j ≤ en →
        (pyEq (e.getD j vnone) I = true ∧ isCountlessE (e.getD j vnone) = false ∧ j ∉ rem) ∨
        (∃ i2 a2, e.getD j vnone = countless i2 a2 ∧ pyEq i2 I = true ∧ j ∈ rem)) ∧
      (en + 1 < e.length →
        pyEq (e.getD (en + 1) vnone) I = false ∧
        (∀ i2 a2, e.getD (en + 1) vnone = countless i2 a2 → pyEq i2 I = false)) ∧
      (∀ j ∈ rem, si ≤ j ∧ j ≤ en) := by
  intro fuel
  induction fuel with
  | zero =>
    intro si en add rem h1 h2 h3 heq
    have hsil : si = e.length := by omega
    rw [rightScan] at heq
    rw [if_neg (by omega)] at heq
    injection heq with e1 e2
    injection e2 with e2 e3
    subst e1; subst e3
    refine ⟨by omega, by omega, fun j hj1 hj2 => absurd (Nat.le_trans hj1 hj2) (by omega),
      fun h => absurd h (by omega), fun j hj => absurd hj (List.not_mem_nil j)⟩
  | succ fuel ih =>
    intro si en add rem h1 h2 h3 heq
    rw [rightScan] at heq
    by_cases hlt : si < e.length
    swap
    · rw [if_neg hlt] at heq
      injection heq with e1 e2
      injection e2 with e2 e3
      subst e1; subst e3
      refine ⟨by omega, by omega, fun j hj1 hj2 => absurd (Nat.le_trans hj1 hj2) (by omega),
        fun h => absurd h (by omega), fun j hj => absurd hj (List.not_mem_nil j)⟩
    rw [if_pos hlt] at heq
    have hrec := ih (si + 1) (rightScan e I (si + 1)).1 (rightScan e I (si + 1)).2.1
      (rightScan e I (si + 1)).2.2 (by omega) (by omega) (by omega) rfl
    rcases hv : e.getD si vnone with _ | _ | _ | _ | _ | xs | xs | ps | _ | xs | ⟨i2, a2⟩ | ⟨i2, a2⟩ | ⟨f, a2⟩ <;>
      rw [hv] at heq <;>
      dsimp only at heq
    case pos.countless =>
      rcases hp1 : pyEq i2 I with _ | _
      · rw [hp1] at heq
        simp only [Bool.false_eq_true, if_false] at heq
        rw [pyEq_countless_ne I i2 a2 hI] at heq
        simp only [Bool.false_eq_true, if_false] at heq
        injection heq with e1 e2
        injection e2 with e2 e3
        subst e1; subst e3
        refine ⟨by omega, by omega, fun j hj1 hj2 => absurd (Nat.le_trans hj1 hj2) (by omega),
          fun _ => ⟨?_, ?_⟩, fun j hj => absurd hj (List.not_mem_nil j)⟩
        · have : si - 1 + 1 = si := by omega
          rw [this, hv]
          exact pyEq_countless_ne I i2 a2 hI
        · intro i3 a3 hc
          have : si - 1 + 1 = si := by omega
          rw [this, hv] at hc
          injection hc with hc1 hc2
          subst hc1
          exact hp1
      · rw [hp1] at heq
        simp only [if_true] at heq
        injection heq with e1 e2
        injection e2 with e2 e3
        subst e1; subst e3
        obtain ⟨r1, r2, r3, r4, r5⟩ := hrec
        refine ⟨by omega, r2, fun j hj1 hj2 => ?_, r4, fun j hj => ?_⟩
        · rcases Nat.lt_or_ge si j with hgt | hge
          · rcases r3 j (by omega) hj2 with ⟨c1, c2, c3⟩ | ⟨i3, a3, c1, c2, c3⟩
            · exact Or.inl ⟨c1, c2, fun hm => by
                rcases List.mem_cons.mp hm with hm | hm
                · omega
                · exact c3 hm⟩
            · exact Or.inr ⟨i3, a3, c1, c2, List.mem_cons_of_mem _ c3⟩
          · have : j = si := by omega
            subst this
            exact Or.inr ⟨i2, a2, hv, hp1, List.mem_cons_self _ _⟩
        · rcases List.mem_cons.mp hj with hj | hj
          · subst hj
            exact ⟨Nat.le_refl _, by omega⟩
          · have := r5 j hj
            exact ⟨by omega, this.2⟩
    all_goals (
      rcases hp : pyEq (e.getD si vnone) I with _ | _ <;> rw [hv] at hp <;> rw [hp] at heq
      · simp only [Bool.false_eq_true, if_false] at heq
        injection heq with e1 e2
        injection e2 with e2 e3
        subst e1; subst e3
        refine ⟨by omega, by omega, fun j hj1 hj2 => absurd (Nat.le_trans hj1 hj2) (by omega),
          fun _ => ⟨?_, ?_⟩, fun j hj => absurd hj (List.not_mem_nil j)⟩
        · have hsi : si - 1 + 1 = si := by omega
          rw [hsi, hv]
          exact hp
        · intro i3 a3 hc
          have hsi : si - 1 + 1 = si := by omega
          rw [hsi, hv] at hc
          exact PyObj.noConfusion hc
      · simp only [if_true] at heq
        injection heq with e1 e2
        injection e2 with e2 e3
        subst e1; subst e3
        obtain ⟨r1, r2, r3, r4, r5⟩ := hrec
        refine ⟨by omega, r2, fun j hj1 hj2 => ?_, r4, fun j hj => ?_⟩
        · rcases Nat.lt_or_ge si j with hgt | hge
          · exact r3 j (by omega) hj2
          · have : j = si := by omega
            subst this
            refine Or.inl ⟨by rw [hv]; exact hp, by rw [hv]; rfl, fun hm => ?_⟩
            have := (r5 j hm).1
            omega
        · have := r5 j hj
          exact ⟨by omega, this.2⟩)

theorem isCountlessE_shape : ∀ {c : PyObj}, isCountlessE c = true →
    ∃ i a, c = countless i a := by
  intro c h
  cases c <;> first
    | exact Bool.noConfusion h
    | (rename_i i a; exact ⟨i, a, rfl⟩)

/-- The per-element well-formedness condition of is_valid_lk_constraint. -/
def elemOK (c : PyObj) : Bool :=
  (getConstraintClass c).isSome ||
    (match c with
      | countless inner _ => (getConstraintClass inner).isSome
      | multiple inner _ => (getConstraintClass inner).isSome
      | _ => false)

theorem validElems_cons_eq (c : PyObj) (rest : List PyObj) :
    validElems (c :: rest) = (elemOK c && validElems rest) := by
  cases c <;> (rw [validElems.eq_def]; rfl)

theorem elemOK_of_isSome {c : PyObj} (h : (getConstraintClass c).isSome = true) :
    elemOK c = true := by
  cases c <;> (rw [elemOK.eq_def]; rw [h]; rfl)

theorem validElems_iff_all : ∀ (l : List PyObj),
    validElems l = true ↔ ∀ x ∈ l, elemOK x = true := by
  intro l
  induction l with
  | nil => rw [validElems]; simp
  | cons c rest ih =>
    rw [validElems_cons_eq, Bool.and_eq_true, ih]
    simp

theorem expandMt_id {l : List PyObj} (hmt : ∀ x ∈ l, isMultipleE x = false) :
    expandMt l = l := by
  induction l with
  | nil => rfl
  | cons x rest ih =>
    rw [expandMt_cons_not_mt (hmt x (List.mem_cons_self x rest)),
      ih (fun y hy => hmt y (List.mem_cons_of_mem x hy))]

theorem validElems_append : ∀ (a b : List PyObj),
    validElems (a ++ b) = (validElems a && validElems b) := by
  intro a b
  induction a with
  | nil => rw [List.nil_append, validElems]; rfl
  | cons c rest ih =>
    rw [List.cons_append, validElems_cons_eq, validElems_cons_eq, ih, Bool.and_assoc]

theorem elemOK_replicate {c : PyObj} (h : elemOK c = true) :
    ∀ n, validElems (List.replicate n c) = true := by
  intro n
  induction n with
  | zero => rw [List.replicate_zero, validElems]
  | succ m ih => rw [List.replicate_succ, validElems_cons_eq, h, ih]; rfl

theorem elemOK_multiple_inner {inner : PyObj} {count : Int}
    (h : elemOK (multiple inner count) = true) :
    (getConstraintClass inner).isSome = true := by
  rw [elemOK, getCC_multiple] at h
  simpa using h

theorem validElems_expandMt {l : List PyObj} (h : validElems l = true) :
    validElems (expandMt l) = true := by
  induction l with
  | nil => exact h
  | cons c rest ih =>
    rw [validElems_cons_eq, Bool.and_eq_true] at h
    obtain ⟨h1, h2⟩ := h
    rcases hm : isMultipleE c with _ | _
    · rw [expandMt_cons_not_mt hm, validElems_cons_eq, h1, ih h2]
      rfl
    · obtain ⟨inner, count, hc⟩ : ∃ i a, c = multiple i a := by
        cases c <;> first
          | exact Bool.noConfusion hm
          | (rename_i i a; exact ⟨i, a, rfl⟩)
      subst hc
      rw [expandMt, validElems_append, Bool.and_eq_true]
      have hin : (getConstraintClass inner).isSome = true := elemOK_multiple_inner h1
      exact ⟨elemOK_replicate (elemOK_of_isSome hin) _, ih h2⟩

theorem expandMt_no_mt {l : List PyObj} (h : validElems l = true) :
    ∀ x ∈ expandMt l, isMultipleE x = false := by
  induction l with
  | nil => intro x hx; cases hx
  | cons c rest ih =>
    rw [validElems_cons_eq, Bool.and_eq_true] at h
    obtain ⟨h1, h2⟩ := h
    intro x hx
    rcases hm : isMultipleE c with _ | _
    · rw [expandMt_cons_not_mt hm] at hx
      rcases List.mem_cons.mp hx with hx | hx
      · subst hx; exact hm
      · exact ih h2 x hx
    · obtain ⟨inner, count, hc⟩ : ∃ i a, c = multiple i a := by
        cases c <;> first
          | exact Bool.noConfusion hm
          | (rename_i i a; exact ⟨i, a, rfl⟩)
      subst hc
      rw [expandMt] at hx
      rcases List.mem_append.mp hx with hx | hx
      · have := List.eq_of_mem_replicate hx
        subst this
        have hin := elemOK_multiple_inner h1
        exact (getCC_isSome_shape hin).2
      · exact ih h2 x hx

theorem mem_ctIdxFrom : ∀ (l : List PyObj) (i j : Nat),
    j ∈ ctIdxFrom i l ↔
      (i ≤ j ∧ j - i < l.length ∧ isCountlessE (l.getD (j - i) vnone) = true) := by
  intro l
  induction l with
  | nil =>
    intro i j
    rw [ctIdxFrom]
    simp
  | cons c rest ih =>
    intro i j
    rw [ctIdxFrom]
    rcases hc : isCountlessE c with _ | _
    · rw [if_neg (by simp [hc])]
      rw [ih (i + 1) j]
      constructor
      · rintro ⟨ha, hb, hcc⟩
        have hji : j - i = (j - (i + 1)) + 1 := by omega
        refine ⟨by omega, by rw [List.length_cons]; omega, ?_⟩
        rw [hji, List.getD_cons_succ]
        exact hcc
      · rintro ⟨ha, hb, hcc⟩
        have hij : i ≠ j := by
          intro hij
          subst hij
          rw [Nat.sub_self, List.getD_cons_zero] at hcc
          rw [hcc] at hc
          exact Bool.noConfusion hc
        have hji : j - i = (j - (i + 1)) + 1 := by omega
        rw [hji, List.getD_cons_succ] at hcc
        rw [List.length_cons] at hb
        exact ⟨by omega, by omega, hcc⟩
    · rw [if_pos (by simp [hc])]
      rw [List.mem_cons, ih (i + 1) j]
      constructor
      · rintro (h | ⟨ha, hb, hcc⟩)
        · subst h
          refine ⟨Nat.le_refl _, by rw [List.length_cons]; omega, ?_⟩
          rw [Nat.sub_self, List.getD_cons_zero]
          exact hc
        · have hji : j - i = (j - (i + 1)) + 1 := by omega
          refine ⟨by omega, by rw [List.length_cons]; omega, ?_⟩
          rw [hji, List.getD_cons_succ]
          exact hcc
      · rintro ⟨ha, hb, hcc⟩
        rcases Nat.eq_or_lt_of_le ha with h | h
        · exact Or.inl h.symm
        · have hji : j - i = (j - (i + 1)) + 1 := by omega
          rw [hji, List.getD_cons_succ] at hcc
          rw [List.length_cons] at hb
          exact Or.inr ⟨by omega, by omega, hcc⟩

theorem mem_ctIdx (e : List PyObj) (j : Nat) :
    j ∈ ctIdx e ↔ (j < e.length ∧ isCountlessE (e.getD j vnone) = true) := by
  rw [ctIdx, mem_ctIdxFrom]
  constructor
  · rintro ⟨_, hb, hc⟩
    rw [Nat.sub_zero] at hb hc
    exact ⟨hb, hc⟩
  · rintro ⟨ha, hb⟩
    exact ⟨Nat.zero_le _, by rw [Nat.sub_zero]; exact ha, by rw [Nat.sub_zero]; exact hb⟩

theorem ctIdxFrom_sorted : ∀ (l : List PyObj) (i : Nat),
    List.Pairwise (fun a b => a < b) (ctIdxFrom i l) := by
  intro l
  induction l with
  | nil => intro i; rw [ctIdxFrom]; exact List.Pairwise.nil
  | cons c rest ih =>
    intro i
    rw [ctIdxFrom]
    rcases hc : isCountlessE c with _ | _
    · rw [if_neg (by simp [hc])]
      exact ih (i + 1)
    · rw [if_pos (by simp [hc])]
      refine List.Pairwise.cons ?_ (ih (i + 1))
      intro j hj
      have := (mem_ctIdxFrom rest (i + 1) j).mp hj
      omega

theorem ctIdx_sorted (e : List PyObj) : List.Pairwise (fun a b => a < b) (ctIdx e) :=
  ctIdxFrom_sorted e 0

/-- Stitching a list back together around position j. -/
theorem drop_take_getD (l : List PyObj) (a j : Nat) (ha : a ≤ j) (hj : j < l.length) :
    (l.drop a).take (j - a) ++ l.getD j vnone :: l.drop (j + 1) = l.drop a := by
  have h2 : (l.drop a).drop (j - a) = l.drop j := by
    rw [List.drop_drop]
    congr 1
    omega
  have h3 : l.drop j = l.getD j vnone :: l.drop (j + 1) := by
    rw [List.getD_eq_getElem l vnone hj]
    exact List.drop_eq_getElem_cons hj
  calc (l.drop a).take (j - a) ++ l.getD j vnone :: l.drop (j + 1)
      = (l.drop a).take (j - a) ++ (l.drop a).drop (j - a) := by rw [h2, h3]
    _ = l.drop a := List.take_append_drop _ _

/-- The neighbour compatibility that makes a simplified pattern stable: a
Countless never sits next to an element (or another Countless) that compares
equal to its inner constraint. -/
def adjOK (x y : PyObj) : Prop :=
  (∀ I a, x = countless I a →
    pyEq y I = false ∧ (∀ i2 a2, y = countless i2 a2 → pyEq i2 I = false)) ∧
  (∀ I a, y = countless I a → pyEq x I = false)

theorem adjOK_plain {x y : PyObj} (hx : isCountlessE x = false)
    (hy : isCountlessE y = false) : adjOK x y := by
  constructor
  · intro I a hxc
    subst hxc
    exact absurd hx (by simp [isCountlessE])
  · intro I a hyc
    subst hyc
    exact absurd hy (by simp [isCountlessE])

theorem chain'_all_plain : ∀ {l : List PyObj},
    (∀ x ∈ l, isCountlessE x = false) → List.Chain' adjOK l := by
  intro l
  induction l with
  | nil => intro _; exact List.chain'_nil
  | cons x rest ih =>
    intro h
    cases rest with
    | nil => exact List.chain'_singleton x
    | cons y rest2 =>
      refine List.Chain'.cons ?_ (ih (fun z hz => h z (List.mem_cons_of_mem x hz)))
      exact adjOK_plain (h x (List.mem_cons_self _ _))
        (h y (List.mem_cons_of_mem x (List.mem_cons_self _ _)))

theorem chain'_getD {l : List PyObj} (h : List.Chain' adjOK l) :
    ∀ j, j + 1 < l.length → adjOK (l.getD j vnone) (l.getD (j + 1) vnone) := by
  intro j hj
  rw [List.getD_eq_getElem l vnone (by omega), List.getD_eq_getElem l vnone hj]
  have := List.chain'_iff_get.mp h j (by omega)
  simpa using this

theorem getD_mem {l : List PyObj} {j : Nat} (h : j < l.length) :
    l.getD j vnone ∈ l := by
  rw [List.getD_eq_getElem l vnone h]
  exact List.getElem_mem h

theorem validElems_countless_inner {l : List PyObj} (h : validElems l = true) :
    ∀ j i2 a2, j < l.length → l.getD j vnone = countless i2 a2 →
      isCountlessE i2 = false ∧ (getConstraintClass i2).isSome = true := by
  intro j i2 a2 hj hc
  have hm := getD_mem hj
  rw [hc] at hm
  have hok := (validElems_iff_all l).mp h _ hm
  rw [elemOK.eq_def] at hok
  dsimp only at hok
  rw [getCC_countless] at hok
  simp only [Option.isSome_none, Bool.false_or] at hok
  exact ⟨(getCC_isSome_shape hok).1, hok⟩

/-- The invariant delivered by the group loop: starting from a bound b, the
groups are ordered and disjoint, sit after a Countless-free gap, each has a
Countless seed with a valid non-Countless inner, elements left of the seed
within the group compare equal to the inner, the element below the group
start does not, and the element past the group end fails both boundary
tests; after the last group no Countless element remains. -/
def GOOD (e : List PyObj) : Nat → List (Nat × Nat × PyObj × Int) → Prop
  | b, [] => ∀ j, b ≤ j → j < e.length → isCountlessE (e.getD j vnone) = false
  | b, (s, en, I, _) :: rest =>
      b ≤ s ∧ s ≤ en ∧ en + 1 ≤ e.length ∧
      (∀ j, b ≤ j → j < s → isCountlessE (e.getD j vnone) = false) ∧
      isCountlessE I = false ∧
      (getConstraintClass I).isSome = true ∧
      (∃ ct a0, s ≤ ct ∧ ct ≤ en ∧ e.getD ct vnone = countless I a0 ∧
        (∀ j, s ≤ j → j < ct → pyEq (e.getD j vnone) I = true)) ∧
      (0 < s → pyEq (e.getD (s - 1) vnone) I = false) ∧
      (en + 1 < e.length →
        pyEq (e.getD (en + 1) vnone) I = false ∧
        (∀ i2 a2, e.getD (en + 1) vnone = countless i2 a2 → pyEq i2 I = false)) ∧
      GOOD e (en + 1) rest

/-- The group loop establishes the invariant from the pending Countless
indexes. -/
theorem groupLoop_good (e : List PyObj) (hval : validElems e = true) :
    ∀ (fuel : Nat) (idxs : List Nat) (b : Nat),
      idxs.length ≤ fuel →
      (∀ j ∈ idxs, b ≤ j ∧ j < e.length ∧ isCountlessE (e.getD j vnone) = true) →
      List.Pairwise (fun a c => a < c) idxs →
      (∀ j, b ≤ j → j < e.length → isCountlessE (e.getD j vnone) = true → j ∈ idxs) →
      (b = 0 ∨
        isCountlessE (e.getD (b - 1) vnone) = true ∨
        (∃ Ik, pyEq (e.getD (b - 1) vnone) Ik = true ∧
          (b < e.length →
            pyEq (e.getD b vnone) Ik = false ∧
            (∀ i2 a2, e.getD b vnone = countless i2 a2 → pyEq i2 Ik = false)))) →
      GOOD e b (groupLoop e idxs) := by
  intro fuel
  induction fuel with
  | zero =>
    intro idxs b hlen hi hsort hcomp hblock
    have : idxs = [] := List.length_eq_zero.mp (by omega)
    subst this
    rw [groupLoop, GOOD]
    intro j hj1 hj2
    rcases hc : isCountlessE (e.getD j vnone) with _ | _
    · rfl
    · exact absurd (hcomp j hj1 hj2 hc) (List.not_mem_nil j)
  | succ fuel ih =>
    intro idxs b hlen hi hsort hcomp hblock
    cases idxs with
    | nil =>
      rw [groupLoop, GOOD]
      intro j hj1 hj2
      rcases hc : isCountlessE (e.getD j vnone) with _ | _
      · rfl
      · exact absurd (hcomp j hj1 hj2 hc) (List.not_mem_nil j)
    | cons ctI rest =>
      obtain ⟨hbC, hCl, hCc⟩ := hi ctI (List.mem_cons_self _ _)
      obtain ⟨inner, al, hct⟩ := isCountlessE_shape hCc
      obtain ⟨hIc, hIv⟩ := validElems_countless_inner hval ctI inner al hCl hct
      rw [groupLoop.eq_def]
      dsimp only
      rw [hct]
      obtain ⟨hs1, hs2, hs3⟩ :=
        leftScan_spec e inner ctI (leftScan e inner ctI).1 (leftScan e inner ctI).2 rfl
      obtain ⟨r1, r2, r3, r4, r5⟩ :=
        rightScan_spec e inner hIc e.length (ctI + 1) (rightScan e inner (ctI + 1)).1
          (rightScan e inner (ctI + 1)).2.1 (rightScan e inner (ctI + 1)).2.2
          (by omega) (by omega) (by omega) rfl
      have hrest_gt : ∀ j ∈ rest, ctI < j := by
        intro j hj
        exact (List.pairwise_cons.mp hsort).1 j hj
      have hbs : b ≤ (leftScan e inner ctI).1 := by
        by_contra hlt
        push_neg at hlt
        rcases hblock with hb0 | hbC2 | ⟨Ik, hk1, hk2⟩
        · omega
        · obtain ⟨i2, a2, hsh⟩ := isCountlessE_shape hbC2
          have hEq1 : pyEq (e.getD (b - 1) vnone) inner = true :=
            hs2 (b - 1) (by omega) (by omega)
          rw [hsh] at hEq1
          rw [pyEq_countless_ne inner i2 a2 hIc] at hEq1
          exact Bool.noConfusion hEq1
        · have hEq1 : pyEq (e.getD (b - 1) vnone) inner = true :=
            hs2 (b - 1) (by omega) (by omega)
          obtain ⟨hb1, hb2⟩ := hk2 (by omega)
          rcases Nat.eq_or_lt_of_le hbC with hbe | hblt
          · have hIk3 : pyEq inner Ik = false := by
              apply hb2 inner al
              rw [← hbe] at hct
              exact hct
            have hIk4 : pyEq inner Ik = true := by
              apply pyEq_trans inner (e.getD (b - 1) vnone) Ik _ hk1
              rw [pyEq_symm]
              exact hEq1
            rw [hIk3] at hIk4
            exact Bool.noConfusion hIk4
          · have hEq2 : pyEq (e.getD b vnone) inner = true :=
              hs2 b (by omega) (by omega)
            have hchain : pyEq (e.getD b vnone) Ik = true := by
              apply pyEq_trans _ (e.getD (b - 1) vnone) _ _ hk1
              apply pyEq_trans _ inner _ hEq2
              rw [pyEq_symm]
              exact hEq1
            rw [hb1] at hchain
            exact Bool.noConfusion hchain
      rw [GOOD]
      refine ⟨hbs, by omega, r2, ?_, hIc, hIv, ?_, hs3, r4, ?_⟩
      · intro j hj1 hj2
        rcases hc : isCountlessE (e.getD j vnone) with _ | _
        · rfl
        · have hj4 := hcomp j hj1 (by omega) hc
          rcases List.mem_cons.mp hj4 with hj4 | hj4
          · omega
          · have := hrest_gt j hj4
            omega
      · exact ⟨ctI, al, hs1, by omega, hct, fun j hj1 hj2 => hs2 j hj1 hj2⟩
      · apply ih
        · have := List.length_filter_le (fun j => !((rightScan e inner (ctI + 1)).2.2.contains j)) rest
          rw [List.length_cons] at hlen
          omega
        · intro j hj
          obtain ⟨hjr, hjp⟩ := List.mem_filter.mp hj
          obtain ⟨_, hjl, hjc⟩ := hi j (List.mem_cons_of_mem _ hjr)
          have hjrem : j ∉ (rightScan e inner (ctI + 1)).2.2 := by
            intro hmem
            have : (rightScan e inner (ctI + 1)).2.2.contains j = true := by
              exact List.elem_eq_true_of_mem hmem
            rw [this] at hjp
            exact Bool.noConfusion hjp
          have hgt := hrest_gt j hjr
          have : (rightScan e inner (ctI + 1)).1 < j := by
            by_contra hle
            push_neg at hle
            rcases r3 j (by omega) hle with ⟨_, hnc, _⟩ | ⟨i2, a2, _, _, hin⟩
            · rw [hjc] at hnc
              exact Bool.noConfusion hnc
            · exact hjrem hin
          exact ⟨by omega, hjl, hjc⟩
        · exact ((List.pairwise_cons.mp hsort).2).filter _
        · intro j hj1 hj2 hj3
          have hj4 := hcomp j (by omega) hj2 hj3
          rcases List.mem_cons.mp hj4 with hj4 | hj4
          · omega
          · apply List.mem_filter.mpr
            refine ⟨hj4, ?_⟩
            have : j ∉ (rightScan e inner (ctI + 1)).2.2 := by
              intro hmem
              have := r5 j hmem
              omega
            rcases hcon : (rightScan e inner (ctI + 1)).2.2.contains j with _ | _
            · rfl
            · have : j ∈ (rightScan e inner (ctI + 1)).2.2 :=
                List.mem_of_elem_eq_true hcon
              exact absurd this (by assumption)
        · right
          rcases Nat.eq_or_lt_of_le (show ctI ≤ (rightScan e inner (ctI + 1)).1 by omega)
            with he | hlt2
          · left
            have : (rightScan e inner (ctI + 1)).1 + 1 - 1 = ctI := by omega
            rw [this, hct]
            rfl
          · rcases r3 (rightScan e inner (ctI + 1)).1 (by omega) (Nat.le_refl _)
              with ⟨hpe, hpc, _⟩ | ⟨i2, a2, hsh, _, _⟩
            · right
              refine ⟨inner, ?_, fun hlen2 => r4 hlen2⟩
              have : (rightScan e inner (ctI + 1)).1 + 1 - 1 =
                  (rightScan e inner (ctI + 1)).1 := by omega
              rw [this]
              exact hpe
            · left
              have : (rightScan e inner (ctI + 1)).1 + 1 - 1 =
                  (rightScan e inner (ctI + 1)).1 := by omega
              rw [this, hsh]
              rfl

theorem takeDropHead (e : List PyObj) (a n : Nat) (hn : 0 < n) (ha : a < e.length) :
    ((e.drop a).take n).head? = some (e.getD a vnone) := by
  rw [List.getD_eq_getElem e vnone ha]
  rw [List.drop_eq_getElem_cons ha]
  cases n with
  | zero => omega
  | succ m => rw [List.take_succ_cons, List.head?_cons]

theorem takeDropLast (e : List PyObj) (a n : Nat) (hn : 0 < n) (h : a + n ≤ e.length) :
    ((e.drop a).take n).getLast? = some (e.getD (a + n - 1) vnone) := by
  have hlen : ((e.drop a).take n).length = n := by
    rw [List.length_take, List.length_drop]
    omega
  have h1 : a + (n - 1) < e.length := by omega
  have he : a + n - 1 = a + (n - 1) := by omega
  rw [he, List.getLast?_eq_getElem?, hlen, List.getElem?_take,
    if_pos (by omega : n - 1 < n), List.getElem?_drop,
    List.getElem?_eq_getElem h1, List.getD_eq_getElem e vnone h1]

theorem takeDropMem {e : List PyObj} {a n : Nat} {x : PyObj}
    (h : x ∈ (e.drop a).take n) :
    ∃ j, a ≤ j ∧ j < a + n ∧ j < e.length ∧ x = e.getD j vnone := by
  obtain ⟨i, hi, hix⟩ := List.mem_iff_getElem.mp h
  have hlen : ((e.drop a).take n).length = min n (e.length - a) := by
    rw [List.length_take, List.length_drop]
  rw [hlen] at hi
  refine ⟨a + i, by omega, by omega, by omega, ?_⟩
  rw [List.getD_eq_getElem e vnone (by omega), ← hix]
  rw [List.getElem_take, List.getElem_drop]

theorem dropMem {e : List PyObj} {a : Nat} {x : PyObj}
    (h : x ∈ e.drop a) :
    ∃ j, a ≤ j ∧ j < e.length ∧ x = e.getD j vnone := by
  obtain ⟨i, hi, hix⟩ := List.mem_iff_getElem.mp h
  rw [List.length_drop] at hi
  refine ⟨a + i, by omega, by omega, ?_⟩
  rw [List.getD_eq_getElem e vnone (by omega), ← hix]
  rw [List.getElem_drop]

theorem GOOD_mem {e : List PyObj} :
    ∀ {gs : List (Nat × Nat × PyObj × Int)} {b s en : Nat} {I : PyObj} {al : Int},
      GOOD e b gs → (s, en, I, al) ∈ gs →
      isCountlessE I = false ∧ (getConstraintClass I).isSome = true := by
  intro gs
  induction gs with
  | nil => intro b s en I al _ hm; cases hm
  | cons g rest ih =>
    obtain ⟨s2, en2, I2, al2⟩ := g
    intro b s en I al hg hm
    rw [GOOD] at hg
    rcases List.mem_cons.mp hm with hm | hm
    · injection hm with h1 h2
      injection h2 with h2 h3
      injection h3 with h3 h4
      subst h3
      exact ⟨hg.2.2.2.2.1, hg.2.2.2.2.2.1⟩
    · exact ih hg.2.2.2.2.2.2.2.2.2 hm

/-- Stitching the groups back produces a pattern whose adjacent elements are
compatible; the head of the rebuilt tail is either the untouched element at
last_end or the merged Countless of a group starting exactly there. -/
theorem rebuild_chain (e : List PyObj)
    (hvv : ∀ j i2 a2, j < e.length → e.getD j vnone = countless i2 a2 →
      isCountlessE i2 = false) :
    ∀ (gs : List (Nat × Nat × PyObj × Int)) (lastEnd : Nat),
      GOOD e lastEnd gs →
      List.Chain' adjOK (rebuildLoop e lastEnd gs) ∧
      (∀ x, (rebuildLoop e lastEnd gs).head? = some x →
        (lastEnd < e.length ∧ x = e.getD lastEnd vnone) ∨
        (∃ en2 I2 al2 rest2, gs = (lastEnd, en2, I2, al2) :: rest2 ∧
          x = countless I2 al2)) := by
  intro gs
  induction gs with
  | nil =>
    intro lastEnd hg
    rw [GOOD] at hg
    rw [rebuildLoop]
    constructor
    · apply chain'_all_plain
      intro x hx
      obtain ⟨j, hj1, hj2, hj3⟩ := dropMem hx
      rw [hj3]
      exact hg j hj1 hj2
    · intro x hx
      rcases Nat.lt_or_ge lastEnd e.length with hlt | hge
      · left
        refine ⟨hlt, ?_⟩
        rw [List.drop_eq_getElem_cons hlt, List.head?_cons] at hx
        injection hx with hx
        rw [← hx, List.getD_eq_getElem e vnone hlt]
      · rw [List.drop_eq_nil_of_le hge] at hx
        exact Option.noConfusion hx
  | cons g rest ih =>
    obtain ⟨s, en, I, al⟩ := g
    intro lastEnd hg
    rw [GOOD] at hg
    obtain ⟨hbs, hsen, henl, hpure, hIc, hIv,
      ⟨ct, a0, hsct, hcten, hct, hleft⟩, hG4, hG6, hrest⟩ := hg
    obtain ⟨ihc, ihh⟩ := ih (en + 1) hrest
    rw [rebuildLoop]
    have hA : ∀ x ∈ (e.drop lastEnd).take (s - lastEnd), isCountlessE x = false := by
      intro x hx
      obtain ⟨j, hj1, hj2, hj3, hj4⟩ := takeDropMem hx
      rw [hj4]
      exact hpure j hj1 (by omega)
    have hctlink : ∀ y, (rebuildLoop e (en + 1) rest).head? = some y →
        adjOK (countless I al) y := by
      intro y hy
      rcases ihh y hy with ⟨hl2, hye⟩ | ⟨en2, I2, al2, rest2, hgs, hyc⟩
      · obtain ⟨hg1, hg2⟩ := hG6 hl2
        subst hye
        constructor
        · intro I3 a3 hx3
          injection hx3 with h1 h2
          subst h1
          exact ⟨hg1, hg2⟩
        · intro I3 a3 hy3
          have h4 : isCountlessE I3 = false := hvv (en + 1) I3 a3 hl2 hy3
          exact pyEq_countless_ne I3 I al h4
      · subst hyc
        rw [hgs, GOOD] at hrest
        obtain ⟨-, hs2en2, hen2l, -, hIc2, -,
          ⟨ct2, a02, hsct2, hct2en2, hct2, hleft2⟩, -, -, -⟩ := hrest
        constructor
        · intro I3 a3 hx3
          injection hx3 with h1 h2
          subst h1
          refine ⟨pyEq_countless_ne I I2 al2 hIc, ?_⟩
          intro i4 a4 h4
          injection h4 with h5 h6
          subst h5
          have hl3 : en + 1 < e.length := by omega
          obtain ⟨hg1, hg2⟩ := hG6 hl3
          rcases Nat.eq_or_lt_of_le hsct2 with hcteq | hctlt
          · apply hg2 I2 a02
            rw [hcteq]
            exact hct2
          · rcases hI2I : pyEq I2 I with _ | _
            · rfl
            · have hEq : pyEq (e.getD (en + 1) vnone) I2 = true :=
                hleft2 (en + 1) (Nat.le_refl _) hctlt
              have : pyEq (e.getD (en + 1) vnone) I = true :=
                pyEq_trans _ I2 _ hEq hI2I
              rw [hg1] at this
              exact Bool.noConfusion this
        · intro I3 a3 hy3
          injection hy3 with h1 h2
          subst h1
          exact pyEq_countless_ne I2 I al hIc2
    constructor
    · rw [List.chain'_append]
      refine ⟨chain'_all_plain hA, ?_, ?_⟩
      · rw [List.chain'_cons']
        exact ⟨fun y hy => hctlink y (Option.mem_def.mp hy), ihc⟩
      · intro x hx y hy
        rw [List.head?_cons, Option.mem_def] at hy
        injection hy with hy
        subst hy
        rw [Option.mem_def] at hx
        rcases Nat.eq_or_lt_of_le hbs with hse | hslt
        · rw [show s - lastEnd = 0 by omega, List.take_zero, List.getLast?_nil] at hx
          exact Option.noConfusion hx
        · have hsl2 : lastEnd < e.length := by omega
          have hgl := takeDropLast e lastEnd (s - lastEnd) (by omega) (by omega)
          rw [hgl] at hx
          injection hx with hx
          have hind : lastEnd + (s - lastEnd) - 1 = s - 1 := by omega
          rw [hind] at hx
          subst hx
          constructor
          · intro I3 a3 hx3
            have := hpure (s - 1) (by omega) (by omega)
            rw [hx3] at this
            exact Bool.noConfusion this
          · intro I3 a3 hy3
            injection hy3 with h1 h2
            subst h1
            exact hG4 (by omega)
    · intro x hx
      rcases Nat.eq_or_lt_of_le hbs with hse | hslt
      · right
        rw [← hse]
        refine ⟨en, I, al, rest, rfl, ?_⟩
        rw [show s - lastEnd = 0 by omega, List.take_zero, List.nil_append,
          List.head?_cons] at hx
        injection hx with hx
        exact hx.symm
      · left
        have hsl2 : lastEnd < e.length := by omega
        have h1 : (e.drop lastEnd).take (s - lastEnd) =
            e.getD lastEnd vnone :: (e.drop (lastEnd + 1)).take (s - lastEnd - 1) := by
          rw [List.getD_eq_getElem e vnone hsl2, List.drop_eq_getElem_cons hsl2,
            show s - lastEnd = (s - lastEnd - 1) + 1 by omega, List.take_succ_cons,
            show s - lastEnd - 1 + 1 - 1 = s - lastEnd - 1 from by omega]
        rw [h1, List.cons_append, List.head?_cons] at hx
        injection hx with hx
        exact ⟨hsl2, hx.symm⟩

theorem filter_contains_nil (rest : List Nat) :
    rest.filter (fun j => !(([] : List Nat).contains j)) = rest := by
  induction rest with
  | nil => rfl
  | cons x t ih => rw [List.filter_cons_of_pos (by rfl), ih]

/-- On a pattern whose adjacent elements are compatible, every Countless
group is a singleton and the rebuild reproduces the dropped tail. -/
theorem groupLoop_rebuild_id (l : List PyObj) (hch : List.Chain' adjOK l) :
    ∀ (fuel : Nat) (idxs : List Nat) (lastEnd : Nat),
      idxs.length ≤ fuel →
      (∀ j ∈ idxs, lastEnd ≤ j ∧ j < l.length ∧ isCountlessE (l.getD j vnone) = true) →
      List.Pairwise (fun a b2 => a < b2) idxs →
      rebuildLoop l lastEnd (groupLoop l idxs) = l.drop lastEnd := by
  intro fuel
  induction fuel with
  | zero =>
    intro idxs lastEnd hlen hi hsort
    have : idxs = [] := List.length_eq_zero.mp (by omega)
    subst this
    rw [groupLoop, rebuildLoop]
  | succ fuel ih =>
    intro idxs lastEnd hlen hi hsort
    cases idxs with
    | nil => rw [groupLoop, rebuildLoop]
    | cons ctI rest =>
      obtain ⟨hle, hlt, hcc⟩ := hi ctI (List.mem_cons_self _ _)
      obtain ⟨inner, al, hceq⟩ := isCountlessE_shape hcc
      rw [groupLoop.eq_def]
      dsimp only
      rw [hceq]
      have hls : leftScan l inner ctI = (ctI, 0) := by
        cases ctI with
        | zero => rw [leftScan]
        | succ k =>
          rw [leftScan]
          have hadj := chain'_getD hch k (by omega)
          have hk1 : l.getD (k + 1) vnone = countless inner al := hceq
          have := hadj.2 inner al hk1
          rw [this]
          simp only [Bool.false_eq_true, if_false]
      have hrs : rightScan l inner (ctI + 1) = (ctI, 0, []) := by
        rw [rightScan]
        by_cases h2 : ctI + 1 < l.length
        · rw [if_pos h2]
          have hadj := chain'_getD hch ctI h2
          rw [hceq] at hadj
          obtain ⟨hq1, hq2⟩ := hadj.1 inner al rfl
          rcases hv2 : l.getD (ctI + 1) vnone with _ | _ | _ | _ | _ | _ | _ | _ | _ | _ | ⟨i2, a2⟩ | _ | _ <;>
            rw [hv2] at hq1 <;>
            dsimp only
          case pos.intro.countless =>
            rw [hq2 i2 a2 hv2]
            simp only [Bool.false_eq_true, if_false]
            rw [hq1]
            simp only [Bool.false_eq_true, if_false]
            rfl
          all_goals (rw [hq1]; simp only [Bool.false_eq_true, if_false]; rfl)
        · rw [if_neg h2]
          have : l.length - 1 = ctI := by omega
          rw [this]
      dsimp only
      rw [hls, hrs]
      dsimp only
      rw [filter_contains_nil]
      rw [rebuildLoop]
      have hrest2 : ∀ j ∈ rest, ctI + 1 ≤ j ∧ j < l.length ∧
          isCountlessE (l.getD j vnone) = true := by
        intro j hj
        obtain ⟨-, h2, h3⟩ := hi j (List.mem_cons_of_mem _ hj)
        exact ⟨(List.pairwise_cons.mp hsort).1 j hj, h2, h3⟩
      rw [ih rest (ctI + 1) (by rw [List.length_cons] at hlen; omega) hrest2
        (List.pairwise_cons.mp hsort).2]
      have hal : (al + 0 + 0 : Int) = al := by omega
      rw [hal, ← hceq]
      exact drop_take_getD l lastEnd ctI hle hlt

/-- A multiple-free pattern with compatible neighbours is a fixed point of
the element-level simplification. -/
theorem simplifyElems_id {l : List PyObj} (hmt : ∀ x ∈ l, isMultipleE x = false)
    (hch : List.Chain' adjOK l) : simplifyElems l = l := by
  rw [simplifyElems]
  rw [expandMt_id hmt]
  rw [groupLoop_rebuild_id l hch (ctIdx l).length (ctIdx l) 0 (Nat.le_refl _)
    (fun j hj => ⟨Nat.zero_le _, ((mem_ctIdx l j).mp hj).1, ((mem_ctIdx l j).mp hj).2⟩)
    (ctIdx_sorted l)]
  exact List.drop_zero l

/-- A simplified pattern is well formed, Multiple-free, and its neighbours
are compatible. -/
theorem simplifyElems_valid_chain {xs : List PyObj} (hval : validElems xs = true) :
    validElems (simplifyElems xs) = true ∧
    (∀ x ∈ simplifyElems xs, isMultipleE x = false) ∧
    List.Chain' adjOK (simplifyElems xs) := by
  have hvalE : validElems (expandMt xs) = true := validElems_expandMt hval
  have hnm : ∀ x ∈ expandMt xs, isMultipleE x = false := expandMt_no_mt hval
  have hvv : ∀ j i2 a2, j < (expandMt xs).length →
      (expandMt xs).getD j vnone = countless i2 a2 → isCountlessE i2 = false :=
    fun j i2 a2 hj hc => (validElems_countless_inner hvalE j i2 a2 hj hc).1
  have hGOOD : GOOD (expandMt xs) 0 (groupLoop (expandMt xs) (ctIdx (expandMt xs))) := by
    apply groupLoop_good (expandMt xs) hvalE (ctIdx (expandMt xs)).length
      (ctIdx (expandMt xs)) 0 (Nat.le_refl _)
    · intro j hj
      obtain ⟨h1, h2⟩ := (mem_ctIdx (expandMt xs) j).mp hj
      exact ⟨Nat.zero_le _, h1, h2⟩
    · exact ctIdx_sorted (expandMt xs)
    · intro j _ hj2 hj3
      exact (mem_ctIdx (expandMt xs) j).mpr ⟨hj2, hj3⟩
    · exact Or.inl rfl
  obtain ⟨hchain, -⟩ := rebuild_chain (expandMt xs) hvv
    (groupLoop (expandMt xs) (ctIdx (expandMt xs))) 0 hGOOD
  have hq : simplifyElems xs =
      rebuildLoop (expandMt xs) 0 (groupLoop (expandMt xs) (ctIdx (expandMt xs))) := by
    rw [simplifyElems]
  refine ⟨?_, ?_, by rw [hq]; exact hchain⟩
  · rw [validElems_iff_all]
    intro x hx
    rw [hq] at hx
    rcases rebuildLoop_mem hx with hxe | ⟨s, en, I, al, hg, hxc⟩
    · exact (validElems_iff_all _).mp hvalE x hxe
    · subst hxc
      have hsome := (GOOD_mem hGOOD hg).2
      rw [elemOK, getCC_countless]
      simp only [Option.isSome_none, Bool.false_or]
      exact hsome
  · intro x hx
    rw [hq] at hx
    rcases rebuildLoop_mem hx with hxe | ⟨s, en, I, al, hg, hxc⟩
    · exact hnm x hxe
    · subst hxc
      rfl

theorem simplifyC_vlist {xs : List PyObj} (hval : validElems xs = true) :
    simplifyC (vlist xs) = some (vlist (simplifyElems xs)) := by
  rw [simplifyC]
  have hc : (!(isValidLkC (vlist xs))) = false := by
    rw [isValidLkC, hval]
    rfl
  rw [hc, if_neg Bool.false_ne_true]

theorem simplifyC_vtuple {xs : List PyObj} (hval : validElems xs = true) :
    simplifyC (vtuple xs) = some (vtuple (simplifyElems xs)) := by
  rw [simplifyC]
  have hc : (!(isValidLkC (vtuple xs))) = false := by
    rw [isValidLkC, hval]
    rfl
  rw [hc, if_neg Bool.false_ne_true]

/-- Claim C6: the simplification pass of ListLikeConstraint is idempotent:
for every valid list-like constraint p, simplify_constraint applied to the
result of simplify_constraint(p) returns that result unchanged — expanding
Multiple and merging Countless groups a second time changes nothing. -/
theorem simplify_idempotent (p : PyObj) (hp : isValidLkC p = true) :
    (simplifyC p).bind simplifyC = simplifyC p := by
  cases p with
  | vlist xs =>
    rw [isValidLkC] at hp
    obtain ⟨hq1, hq2, hq3⟩ := simplifyElems_valid_chain hp
    rw [simplifyC_vlist hp, Option.some_bind, simplifyC_vlist hq1,
      simplifyElems_id hq2 hq3]
  | vtuple xs =>
    rw [isValidLkC] at hp
    obtain ⟨hq1, hq2, hq3⟩ := simplifyElems_valid_chain hp
    rw [simplifyC_vtuple hp, Option.some_bind, simplifyC_vtuple hq1,
      simplifyElems_id hq2 hq3]
  | vint n => rw [isValidLkC.eq_def] at hp; exact Bool.noConfusion hp
  | vstr s => rw [isValidLkC.eq_def] at hp; exact Bool.noConfusion hp
  | vbool b => rw [isValidLkC.eq_def] at hp; exact Bool.noConfusion hp
  | vfloat f => rw [isValidLkC.eq_def] at hp; exact Bool.noConfusion hp
  | vnone => rw [isValidLkC.eq_def] at hp; exact Bool.noConfusion hp
  | vdict ps => rw [isValidLkC.eq_def] at hp; exact Bool.noConfusion hp
  | ptype t => rw [isValidLkC.eq_def] at hp; exact Bool.noConfusion hp
  | orc opts => rw [isValidLkC.eq_def] at hp; exact Bool.noConfusion hp
  | countless i a => rw [isValidLkC.eq_def] at hp; exact Bool.noConfusion hp
  | multiple i a => rw [isValidLkC.eq_def] at hp; exact Bool.noConfusion hp
  | pfun f a => rw [isValidLkC.eq_def] at hp; exact Bool.noConfusion hp

/-- Concrete instance of Claim C6: simplifying
[Countless(Type(Integer), 1), Type(Integer)] once gives
[Countless(Type(Integer), 2)], and simplifying again changes nothing. -/
theorem simplify_idempotent_witness :
    isValidLkC (vlist [countless (ptype PyType.tInt) 1, ptype PyType.tInt]) = true ∧
    (simplifyC (vlist [countless (ptype PyType.tInt) 1, ptype PyType.tInt])).bind simplifyC =
      simplifyC (vlist [countless (ptype PyType.tInt) 1, ptype PyType.tInt]) := by
  constructor
  · simp
  · exact simplify_idempotent _ (by simp)

end Sugary
